import Mathlib

/-!
Verification of src/tools/deobfuscate_worker.py against its specification.

Python strings are modelled as lists of Unicode code points (`PyStr`), since
the worker manipulates raw code points (including, via chr-escapes, lone
surrogates that Lean's `Char` cannot represent).  Each definition below is a
shallow embedding of the correspondingly named Python function; doc comments
name the source lines embedded.
-/

set_option maxRecDepth 20000

/-- A Python string: a finite sequence of Unicode code points. -/
abbrev PyStr := List Nat

/-- Convert a Lean string literal to the code-point model (used only to state
concrete examples and witnesses). -/
def cp (s : String) : PyStr := s.toList.map Char.toNat

/-! ## Python list indexing and the decode operation (lines 274-275) -/

/-- Python list subscription `l[i]`: a negative index `i` is first shifted by
`len(l)`; the access succeeds iff the shifted index is in range, otherwise an
`IndexError` is raised (modelled as `none`). -/
def pyIndex {α : Type} (l : List α) (i : Int) : Option α :=
  let j : Int := if i < 0 then i + l.length else i
  if 0 ≤ j ∧ j < l.length then l.get? j.toNat else none

/-- `decode` (lines 274-275): `def decode(num): return arr[num - offset]`. -/
def pyDecode (tbl : List PyStr) (off : Int) (n : Int) : Option PyStr :=
  pyIndex tbl (n - off)

/-! ## `_strip_exports` (lines 15-19) and the preprocessing `main` performs -/

/-- ASCII whitespace matched by the regex class matching a space
(space, tab, LF, CR, VT, FF).  Unicode whitespace beyond ASCII is not
modelled; the worker's inputs are ASCII in the relevant positions. -/
def isSpaceC (c : Nat) : Bool :=
  c = 32 ∨ c = 9 ∨ c = 10 ∨ c = 13 ∨ c = 11 ∨ c = 12

/-- Word characters of the regex class for w, ASCII-modelled. -/
def isWordC (c : Nat) : Bool :=
  (48 ≤ c ∧ c ≤ 57) ∨ (65 ≤ c ∧ c ≤ 90) ∨ (97 ≤ c ∧ c ≤ 122) ∨ c = 95

/-- Drop a maximal run of regex-space characters. -/
def dropSpaces : PyStr → PyStr
  | [] => []
  | c :: rest => if isSpaceC c then dropSpaces rest else c :: rest

/-- Is `pre` a literal prefix of `l`?  Returns the remainder on success. -/
def stripLit : PyStr → PyStr → Option PyStr
  | [], l => some l
  | _ :: _, [] => none
  | p :: ps, c :: cs => if c = p then stripLit ps cs else none

/-- Attempt to match, at the head of `l`, the part of the regex pattern
matching export, then any spaces, an opening brace, a run of non-brace
characters, a closing brace, spaces, an optional semicolon and spaces
(the tail pattern of the first substitution in `_strip_exports`, line 17).
Returns the remainder after the match.  Each greedy class here is followed
by a literal outside the class, so maximal munch is exact. -/
def matchExportClause (l : PyStr) : Option PyStr :=
  match stripLit [101, 120, 112, 111, 114, 116] l with  -- "export"
  | none => none
  | some r1 =>
    let r2 := dropSpaces r1
    match r2 with
    | 123 :: r3 =>  -- opening brace
      let r4 := r3.dropWhile (fun c => c ≠ 125)  -- greedy run of non-brace
      match r4 with
      | 125 :: r5 =>  -- closing brace
        let r6 := dropSpaces r5
        let r7 := match r6 with
          | 59 :: r => dropSpaces r  -- optional semicolon
          | _ => r6
        some r7
      | _ => none
    | _ => none

/-- Does the end-of-string anchor of the regex (no MULTILINE flag) hold at
this remainder: either the end of the string, or just before a final
newline. -/
def atDollar (l : PyStr) : Bool :=
  match l with
  | [] => true
  | [10] => true
  | _ => false

/-- One scanning pass of the first substitution of `_strip_exports`
(line 17): find the leftmost match of the anchored export-clause pattern
(word boundary before export, clause body, end anchor) and delete it.
`prevW` tracks whether the previous character is a word character, for the
word-boundary assertion. -/
def stripExportTail : Bool → PyStr → PyStr
  | _, [] => []
  | prevW, l@(c :: rest) =>
    if ¬prevW ∧ c = 101 then  -- boundary before a word char, head matches e
      match matchExportClause l with
      | some r => if atDollar r then r else c :: stripExportTail true rest
      | none => c :: stripExportTail (isWordC c) rest
    else c :: stripExportTail (isWordC c) rest

/-- Match the pattern of the second substitution in `_strip_exports`
(line 18): export, one or more spaces, default, one or more spaces,
with a word boundary before export.  Returns the remainder. -/
def matchExportDefault (l : PyStr) : Option PyStr :=
  match stripLit [101, 120, 112, 111, 114, 116] l with  -- "export"
  | none => none
  | some r1 =>
    match r1 with
    | c :: _ =>
      if isSpaceC c then
        match stripLit [100, 101, 102, 97, 117, 108, 116] (dropSpaces r1) with  -- "default"
        | none => none
        | some r2 =>
          match r2 with
          | d :: _ => if isSpaceC d then some (dropSpaces r2) else none
          | [] => none
      else none
    | [] => none

/-- The second substitution of `_strip_exports` (line 18): delete every
(non-overlapping, leftmost-first) occurrence of export-spaces-default-spaces
anywhere in the text.  The fuel argument only bounds the recursion; every
match consumes at least one character, so fuel equal to the input length
suffices. -/
def stripExportDefaultAux : Nat → Bool → PyStr → PyStr
  | 0, _, l => l
  | _ + 1, _, [] => []
  | f + 1, prevW, c :: rest =>
    if ¬prevW ∧ c = 101 then
      match matchExportDefault (c :: rest) with
      | some r => stripExportDefaultAux f false r
      | none => c :: stripExportDefaultAux f (isWordC c) rest
    else c :: stripExportDefaultAux f (isWordC c) rest

/-- `_strip_exports` (lines 15-19): the first substitution removes a trailing
export-brace clause, the second removes every export-default marker. -/
def stripExports (js : PyStr) : PyStr :=
  let t := stripExportTail false js
  stripExportDefaultAux t.length false t

/-- What `main` (lines 267-272) actually does to the source text before the
extraction phase runs: nothing.  `src` is read (line 268) and passed directly
to `_extract_bootstrap`, `_extract_q_offset` and `_extract_string_array`;
`_strip_exports` is never invoked anywhere in the program. -/
def mainPreprocess (src : PyStr) : PyStr := src

/-! ## Theorems for C1 -/

/-- C1, counterexample: the claim asserts that `decode` fails for every
negative computed position, but with table `[a, b]`, offset `0` and index
`-1` the computed position is `-1 < 0` and `decode` succeeds, returning the
last element `b` (Python negative indexing). -/
theorem c1_decode_counterexample :
    pyDecode [cp ("a"), cp ("b")] 0 (-1) = some (cp ("b")) ∧ ((-1 : Int) - 0) < 0 := by
  constructor
  · decide
  · decide

/-- C1, amended: `decode(n)` returns `table[n - offset]` when
`0 ≤ n - offset < len(table)`; it raises `IndexError` exactly when
`n - offset ≥ len(table)` or `n - offset < -len(table)`; and for
`-len(table) ≤ n - offset < 0` it returns `table[len(table) + (n - offset)]`
without failing (Python negative indexing). -/
theorem c1_decode_amended (tbl : List PyStr) (off n : Int) :
    pyDecode tbl off n =
      if 0 ≤ n - off ∧ n - off < tbl.length then tbl.get? (n - off).toNat
      else if -(tbl.length : Int) ≤ n - off ∧ n - off < 0 then
        tbl.get? ((tbl.length : Int) + (n - off)).toNat
      else none := by
  simp only [pyDecode, pyIndex]
  split_ifs <;> first
    | rfl
    | (exfalso; omega)
    | (congr 1; omega)

/-! ## Theorems for C2 -/

/-- C2, code-level evidence: on a source text ending in an ECMAScript export
clause, the pipeline's actual preprocessing (`mainPreprocess`, i.e. nothing:
`_strip_exports` is defined at lines 15-19 but never called) leaves the
clause in place, while `_strip_exports` as specified would have removed it.
The claim that the pipeline strips the clause before parsing is contradicted
by the code. -/
theorem c2_strip_exports_not_called :
    mainPreprocess (cp ("u5();export\x7bu5 as default\x7d;")) =
        cp ("u5();export\x7bu5 as default\x7d;") ∧
      stripExports (cp ("u5();export\x7bu5 as default\x7d;")) = cp ("u5();") ∧
      stripExports (cp ("u5();export\x7bu5 as default\x7d;")) ≠
        cp ("u5();export\x7bu5 as default\x7d;") := by
  refine ⟨rfl, by decide, by decide⟩

/-! ## `_decode_js_string_literal` (lines 22-77) -/

/-- Value of a single hexadecimal digit character. -/
def hexDigitVal (c : Nat) : Option Nat :=
  if 48 ≤ c ∧ c ≤ 57 then some (c - 48)
  else if 97 ≤ c ∧ c ≤ 102 then some (c - 87)
  else if 65 ≤ c ∧ c ≤ 70 then some (c - 55)
  else none

/-- Is `c` a hexadecimal digit character? -/
def isHexDig (c : Nat) : Bool :=
  (48 ≤ c ∧ c ≤ 57) ∨ (97 ≤ c ∧ c ≤ 102) ∨ (65 ≤ c ∧ c ≤ 70)

/-- A run of hexadecimal digits, with single underscores allowed between
digits (Python's int-literal grammar).  `lastD` records whether the previous
character was a digit; the run must be nonempty and must not end in an
underscore. -/
def hexRunVal : PyStr → Nat → Bool → Option Nat
  | [], acc, lastD => if lastD then some acc else none
  | 95 :: rest, acc, lastD => if lastD then hexRunVal rest acc false else none
  | c :: rest, acc, _ =>
    match hexDigitVal c with
    | some v => hexRunVal rest (acc * 16 + v) true
    | none => none

/-- The digits part of a base-16 Python `int` literal: an optional 0x or 0X
prefix (optionally followed by a single underscore ahead of the digits),
then a nonempty digit run. -/
def parseHexBody : PyStr → Option Nat
  | 48 :: 120 :: rest =>
    (match rest with
     | 95 :: r2 => hexRunVal r2 0 false
     | r2 => hexRunVal r2 0 false)
  | 48 :: 88 :: rest =>
    (match rest with
     | 95 :: r2 => hexRunVal r2 0 false
     | r2 => hexRunVal r2 0 false)
  | r => hexRunVal r 0 false

/-- Strip leading and trailing regex-space characters. -/
def stripWs (l : PyStr) : PyStr :=
  ((dropSpaces l.reverse).reverse |> dropSpaces)

/-- Python `int(s, 16)`: strip surrounding whitespace, read an optional
sign, then a base-16 literal body; `ValueError` is `none`. -/
def intStr16 (l : PyStr) : Option Int :=
  match stripWs l with
  | 43 :: r => (parseHexBody r).map (fun v => (v : Int))
  | 45 :: r => (parseHexBody r).map (fun v => -(v : Int))
  | r => (parseHexBody r).map (fun v => (v : Int))

/-- Python `chr(v)`: valid for code points `0 ≤ v < 0x110000`, raises
`ValueError` otherwise. -/
def chrOf (v : Int) : Option Nat :=
  if 0 ≤ v ∧ v < 1114112 then some v.toNat else none

/-- `body.find(chr(125), i+1)` followed by the slice between: splits at the
first closing brace, returning the part before and after; `none` when no
closing brace exists. -/
def splitBrace : PyStr → Option (PyStr × PyStr)
  | [] => none
  | 125 :: r => some ([], r)
  | c :: r => (splitBrace r).map (fun p => (c :: p.1, p.2))

/-- The body loop of `_decode_js_string_literal` (lines 30-75), one fuel unit
per loop iteration (fuel larger than the body length suffices).  Mirrors the
Python escape dispatch: an x-escape requires two remaining characters, else
it falls through to the literal pass-through; a u-escape reads a braced hex
run (appending a literal u when the brace is unclosed) or the slice of up to
four following characters; the named single-character escapes; and every
other escaped character (including backslash and both quotes) passes through
literally. -/
def decBodyAux : Nat → PyStr → Option PyStr
  | 0, _ => none
  | _ + 1, [] => some []
  | f + 1, ch :: rest =>
    if ch ≠ 92 then (decBodyAux f rest).map (fun t => ch :: t)
    else
      match rest with
      | [] => some []
      | esc :: rest2 =>
        if esc = 120 ∧ 2 ≤ rest2.length then
          match intStr16 (rest2.take 2) with
          | some v =>
            match chrOf v with
            | some u => (decBodyAux f (rest2.drop 2)).map (fun t => u :: t)
            | none => none
          | none => none
        else if esc = 117 then
          match rest2 with
          | 123 :: rest3 =>
            match splitBrace rest3 with
            | none => (decBodyAux f rest2).map (fun t => 117 :: t)
            | some (hx, after) =>
              match intStr16 hx with
              | some v =>
                match chrOf v with
                | some u => (decBodyAux f after).map (fun t => u :: t)
                | none => none
              | none => none
          | _ =>
            match intStr16 (rest2.take 4) with
            | some v =>
              match chrOf v with
              | some u => (decBodyAux f (rest2.drop 4)).map (fun t => u :: t)
              | none => none
            | none => none
        else if esc = 110 then (decBodyAux f rest2).map (fun t => 10 :: t)
        else if esc = 114 then (decBodyAux f rest2).map (fun t => 13 :: t)
        else if esc = 116 then (decBodyAux f rest2).map (fun t => 9 :: t)
        else if esc = 98 then (decBodyAux f rest2).map (fun t => 8 :: t)
        else if esc = 102 then (decBodyAux f rest2).map (fun t => 12 :: t)
        else if esc = 118 then (decBodyAux f rest2).map (fun t => 11 :: t)
        else if esc = 48 then (decBodyAux f rest2).map (fun t => 0 :: t)
        else (decBodyAux f rest2).map (fun t => esc :: t)

/-- `_decode_js_string_literal` (lines 22-77): the literal must be at least
two characters with equal first and last characters, both a quote; the body
between the quotes is decoded by `decBodyAux`.  `ValueError` is `none`. -/
def decodeJsStringLiteral (lit : PyStr) : Option PyStr :=
  if 2 ≤ lit.length ∧ lit.head? = lit.getLast? ∧
      (lit.head? = some 39 ∨ lit.head? = some 34) then
    decBodyAux lit.length ((lit.drop 1).dropLast)
  else none

/-! ## The encoder `json.dumps(s, ensure_ascii=False)` (line 314) -/

/-- Lowercase hexadecimal digit character for a value below 16. -/
def hexDigL (n : Nat) : Nat := if n < 10 then 48 + n else 87 + n

/-- Per-character escaping of the JSON string encoder with
`ensure_ascii=False`: double quote and backslash are escaped, the control
characters below 0x20 use the short escapes for backspace, tab, newline,
form feed and carriage return and a four-digit lowercase u-escape otherwise;
every other character is emitted raw. -/
def encChar (c : Nat) : PyStr :=
  if c = 34 then [92, 34]
  else if c = 92 then [92, 92]
  else if c = 8 then [92, 98]
  else if c = 9 then [92, 116]
  else if c = 10 then [92, 110]
  else if c = 12 then [92, 102]
  else if c = 13 then [92, 114]
  else if c < 32 then [92, 117, 48, 48, hexDigL (c / 16), hexDigL (c % 16)]
  else [c]

/-- `json.dumps(s, ensure_ascii=False)` for a string value: the escaped body
surrounded by double quotes. -/
def encodeLiteral (s : PyStr) : PyStr := 34 :: s.flatMap encChar ++ [34]

/-- Modelled from the spec: a syntactically valid ECMAScript string-literal
body (modern ECMAScript, where U+2028/U+2029 may appear raw): no raw quote,
backslash, newline or carriage return, and every backslash starts one of the
escapes the encoder can emit (quote, backslash, b, f, n, r, t, or u with
four hex digits). -/
def validLitBodyAux : Nat → PyStr → Bool
  | _, [] => true
  | 0, _ :: _ => false
  | f + 1, 92 :: rest =>
    (match rest with
     | [] => false
     | esc :: rest2 =>
       if esc = 34 ∨ esc = 92 ∨ esc = 98 ∨ esc = 102 ∨ esc = 110 ∨ esc = 114 ∨ esc = 116 then
         validLitBodyAux f rest2
       else if esc = 117 then
         match rest2 with
         | a :: b :: c :: d :: rest3 =>
           isHexDig a && isHexDig b && isHexDig c && isHexDig d && validLitBodyAux f rest3
         | _ => false
       else false)
  | f + 1, c :: rest => if c = 34 ∨ c = 10 ∨ c = 13 then false else validLitBodyAux f rest

/-- Modelled from the spec: a syntactically valid, properly quoted string
literal: a quote character, a well-formed body containing no raw closing
quote, and the same quote character at the end. -/
def validJsLiteral (l : PyStr) : Bool :=
  match l with
  | [] => false
  | q :: rest =>
    if (q = 34 ∨ q = 39) ∧ rest ≠ [] ∧ rest.getLast? = some q then
      validLitBodyAux l.length rest.dropLast
    else false

/-! ## Theorems for C8 -/

/-- C8, code-level evidence: the four-character literal quote-backslash-u-quote
has a u-escape with zero of its four required digits before the body ends; the
claim (and the spec) say the unterminated escape is truncated silently, but the
code raises an uncaught `ValueError` from `int('', 16)`.  Moreover for an
x-escape short of digits the code appends a literal x rather than truncating:
the literal quote-a-b-c-backslash-x-quote decodes to a-b-c-x, not a-b-c. -/
theorem c8_unterminated_escape_fatal :
    decodeJsStringLiteral [34, 92, 117, 34] = none ∧
      decodeJsStringLiteral [34, 97, 98, 99, 92, 120, 34] = some [97, 98, 99, 120] := by
  constructor
  · decide
  · decide

/-! ## Theorems for C7 -/

/-- Parsing two zero digits followed by two lowercase hex digits yields the
encoded value. -/
theorem intStr16_hexpair : ∀ a, a < 16 → ∀ b, b < 16 →
    intStr16 [48, 48, hexDigL a, hexDigL b] = some ((16 * a + b : Nat) : Int) := by
  decide

/-- The lowercase hex digit of a value below 16 is a hex digit character. -/
theorem isHexDig_hexDigL : ∀ a, a < 16 → isHexDig (hexDigL a) = true := by
  decide

/-- One decode step on a raw (non-backslash) character. -/
theorem decBodyAux_raw (f c : Nat) (rest : PyStr) (h : ¬c = 92) :
    decBodyAux (f + 1) (c :: rest) = (decBodyAux f rest).map (fun t => c :: t) := by
  simp only [decBodyAux]
  simp [h]

/-- One decode step on an escaped character that hits none of the named
escape branches: the character passes through literally. -/
theorem decBodyAux_escOther (f e : Nat) (rest : PyStr) (h120 : ¬e = 120)
    (h117 : ¬e = 117) (h110 : ¬e = 110) (h114 : ¬e = 114) (h116 : ¬e = 116)
    (h98 : ¬e = 98) (h102 : ¬e = 102) (h118 : ¬e = 118) (h48 : ¬e = 48) :
    decBodyAux (f + 1) (92 :: e :: rest) = (decBodyAux f rest).map (fun t => e :: t) := by
  simp only [decBodyAux]
  simp [h120, h117, h110, h114, h116, h98, h102, h118, h48]

/-- One decode step on an escaped b. -/
theorem decBodyAux_escB (f : Nat) (rest : PyStr) :
    decBodyAux (f + 1) (92 :: 98 :: rest) = (decBodyAux f rest).map (fun t => 8 :: t) := by
  simp only [decBodyAux]
  norm_num

/-- One decode step on an escaped t. -/
theorem decBodyAux_escT (f : Nat) (rest : PyStr) :
    decBodyAux (f + 1) (92 :: 116 :: rest) = (decBodyAux f rest).map (fun t => 9 :: t) := by
  simp only [decBodyAux]
  norm_num

/-- One decode step on an escaped n. -/
theorem decBodyAux_escN (f : Nat) (rest : PyStr) :
    decBodyAux (f + 1) (92 :: 110 :: rest) = (decBodyAux f rest).map (fun t => 10 :: t) := by
  simp only [decBodyAux]
  norm_num

/-- One decode step on an escaped f. -/
theorem decBodyAux_escF (f : Nat) (rest : PyStr) :
    decBodyAux (f + 1) (92 :: 102 :: rest) = (decBodyAux f rest).map (fun t => 12 :: t) := by
  simp only [decBodyAux]
  norm_num

/-- One decode step on an escaped r. -/
theorem decBodyAux_escR (f : Nat) (rest : PyStr) :
    decBodyAux (f + 1) (92 :: 114 :: rest) = (decBodyAux f rest).map (fun t => 13 :: t) := by
  simp only [decBodyAux]
  norm_num

/-- One decode step on a four-digit u-escape whose digits parse to a valid
code point. -/
theorem decBodyAux_uesc (f : Nat) (h1 h2 : Nat) (rest : PyStr) (v : Int) (u : Nat)
    (hpair : intStr16 [48, 48, h1, h2] = some v) (hchr : chrOf v = some u) :
    decBodyAux (f + 1) (92 :: 117 :: 48 :: 48 :: h1 :: h2 :: rest) =
      (decBodyAux f rest).map (fun t => u :: t) := by
  simp only [decBodyAux]
  norm_num
  simp only [hpair, hchr]

/-- Decoding inverts the per-character JSON escaping, given enough fuel. -/
theorem decBodyAux_encChar (s : PyStr) :
    ∀ f, (s.flatMap encChar).length < f → decBodyAux f (s.flatMap encChar) = some s := by
  induction s with
  | nil =>
    intro f hf
    cases f with
    | zero => omega
    | succ f => simp [decBodyAux]
  | cons c s ih =>
    intro f hf
    rw [List.flatMap_cons] at hf ⊢
    by_cases h34 : c = 34
    · subst h34
      have henc : encChar 34 = ([92, 34] : PyStr) := rfl
      rw [henc] at hf ⊢
      cases f with
      | zero => omega
      | succ f =>
        have hrec := ih f (by
          simp only [List.length_append, List.length_cons, List.length_nil] at hf; omega)
        simp only [List.cons_append, List.nil_append]
        rw [decBodyAux_escOther f 34 (s.flatMap encChar) (by norm_num) (by norm_num) (by norm_num) (by norm_num) (by norm_num) (by norm_num) (by norm_num) (by norm_num) (by norm_num)]
        simp [hrec]
    · by_cases h92 : c = 92
      · subst h92
        have henc : encChar 92 = ([92, 92] : PyStr) := rfl
        rw [henc] at hf ⊢
        cases f with
        | zero => omega
        | succ f =>
          have hrec := ih f (by
            simp only [List.length_append, List.length_cons, List.length_nil] at hf; omega)
          simp only [List.cons_append, List.nil_append]
          rw [decBodyAux_escOther f 92 (s.flatMap encChar) (by norm_num) (by norm_num) (by norm_num) (by norm_num) (by norm_num) (by norm_num) (by norm_num) (by norm_num) (by norm_num)]
          simp [hrec]
      · by_cases h8 : c = 8
        · subst h8
          have henc : encChar 8 = ([92, 98] : PyStr) := rfl
          rw [henc] at hf ⊢
          cases f with
          | zero => omega
          | succ f =>
            have hrec := ih f (by
              simp only [List.length_append, List.length_cons, List.length_nil] at hf; omega)
            simp only [List.cons_append, List.nil_append]
            rw [decBodyAux_escB]
            simp [hrec]
        · by_cases h9 : c = 9
          · subst h9
            have henc : encChar 9 = ([92, 116] : PyStr) := rfl
            rw [henc] at hf ⊢
            cases f with
            | zero => omega
            | succ f =>
              have hrec := ih f (by
                simp only [List.length_append, List.length_cons, List.length_nil] at hf; omega)
              simp only [List.cons_append, List.nil_append]
              rw [decBodyAux_escT]
              simp [hrec]
          · by_cases h10 : c = 10
            · subst h10
              have henc : encChar 10 = ([92, 110] : PyStr) := rfl
              rw [henc] at hf ⊢
              cases f with
              | zero => omega
              | succ f =>
                have hrec := ih f (by
                  simp only [List.length_append, List.length_cons, List.length_nil] at hf; omega)
                simp only [List.cons_append, List.nil_append]
                rw [decBodyAux_escN]
                simp [hrec]
            · by_cases h12 : c = 12
              · subst h12
                have henc : encChar 12 = ([92, 102] : PyStr) := rfl
                rw [henc] at hf ⊢
                cases f with
                | zero => omega
                | succ f =>
                  have hrec := ih f (by
                    simp only [List.length_append, List.length_cons, List.length_nil] at hf; omega)
                  simp only [List.cons_append, List.nil_append]
                  rw [decBodyAux_escF]
                  simp [hrec]
              · by_cases h13 : c = 13
                · subst h13
                  have henc : encChar 13 = ([92, 114] : PyStr) := rfl
                  rw [henc] at hf ⊢
                  cases f with
                  | zero => omega
                  | succ f =>
                    have hrec := ih f (by
                      simp only [List.length_append, List.length_cons, List.length_nil] at hf; omega)
                    simp only [List.cons_append, List.nil_append]
                    rw [decBodyAux_escR]
                    simp [hrec]
                · by_cases h32 : c < 32
                  · have henc : encChar c = [92, 117, 48, 48, hexDigL (c / 16), hexDigL (c % 16)] := by
                      simp only [encChar, if_neg h34, if_neg h92, if_neg h8, if_neg h9, if_neg h10, if_neg h12, if_neg h13, if_pos h32]
                    rw [henc] at hf ⊢
                    cases f with
                    | zero => omega
                    | succ f =>
                      have hrec := ih f (by
                        simp only [List.length_append, List.length_cons, List.length_nil] at hf; omega)
                      have hpair := intStr16_hexpair (c / 16) (by omega) (c % 16) (Nat.mod_lt _ (by norm_num))
                      have hval : 16 * (c / 16) + c % 16 = c := Nat.div_add_mod c 16
                      rw [hval] at hpair
                      have hchr : chrOf ((c : Nat) : Int) = some c := by
                        unfold chrOf
                        rw [if_pos (by constructor <;> omega)]
                        simp
                      simp only [List.cons_append, List.nil_append]
                      rw [decBodyAux_uesc f _ _ _ _ _ hpair hchr]
                      simp [hrec]
                  · have henc : encChar c = [c] := by
                      simp only [encChar, if_neg h34, if_neg h92, if_neg h8, if_neg h9, if_neg h10, if_neg h12, if_neg h13, if_neg h32]
                    rw [henc] at hf ⊢
                    cases f with
                    | zero => omega
                    | succ f =>
                      have hrec := ih f (by
                        simp only [List.length_append, List.length_cons, List.length_nil] at hf; omega)
                      simp only [List.cons_append, List.nil_append]
                      rw [decBodyAux_raw f c _ h92]
                      simp [hrec]


/-- One validity-scan step on a raw (non-backslash, non-special) character. -/
theorem validLitBodyAux_raw (f c : Nat) (rest : PyStr) (h92 : ¬c = 92)
    (h : ¬(c = 34 ∨ c = 10 ∨ c = 13)) :
    validLitBodyAux (f + 1) (c :: rest) = validLitBodyAux f rest := by
  simp [validLitBodyAux, h92, h]

/-- Validity of the body emitted by the encoder. -/
theorem validLitBodyAux_encChar (s : PyStr) :
    ∀ f, (s.flatMap encChar).length < f → validLitBodyAux f (s.flatMap encChar) = true := by
  induction s with
  | nil =>
    intro f hf
    cases f with
    | zero => omega
    | succ f => rfl
  | cons c s ih =>
    intro f hf
    rw [List.flatMap_cons] at hf ⊢
    by_cases h34 : c = 34
    · subst h34
      have henc : encChar 34 = ([92, 34] : PyStr) := rfl
      rw [henc] at hf ⊢
      cases f with
      | zero => omega
      | succ f =>
        have hrec := ih f (by
          simp only [List.length_append, List.length_cons, List.length_nil] at hf; omega)
        simp only [List.cons_append, List.nil_append]
        exact hrec
    · by_cases h92 : c = 92
      · subst h92
        have henc : encChar 92 = ([92, 92] : PyStr) := rfl
        rw [henc] at hf ⊢
        cases f with
        | zero => omega
        | succ f =>
          have hrec := ih f (by
            simp only [List.length_append, List.length_cons, List.length_nil] at hf; omega)
          simp only [List.cons_append, List.nil_append]
          exact hrec
      · by_cases h8 : c = 8
        · subst h8
          have henc : encChar 8 = ([92, 98] : PyStr) := rfl
          rw [henc] at hf ⊢
          cases f with
          | zero => omega
          | succ f =>
            have hrec := ih f (by
              simp only [List.length_append, List.length_cons, List.length_nil] at hf; omega)
            simp only [List.cons_append, List.nil_append]
            exact hrec
        · by_cases h9 : c = 9
          · subst h9
            have henc : encChar 9 = ([92, 116] : PyStr) := rfl
            rw [henc] at hf ⊢
            cases f with
            | zero => omega
            | succ f =>
              have hrec := ih f (by
                simp only [List.length_append, List.length_cons, List.length_nil] at hf; omega)
              simp only [List.cons_append, List.nil_append]
              exact hrec
          · by_cases h10 : c = 10
            · subst h10
              have henc : encChar 10 = ([92, 110] : PyStr) := rfl
              rw [henc] at hf ⊢
              cases f with
              | zero => omega
              | succ f =>
                have hrec := ih f (by
                  simp only [List.length_append, List.length_cons, List.length_nil] at hf; omega)
                simp only [List.cons_append, List.nil_append]
                exact hrec
            · by_cases h12 : c = 12
              · subst h12
                have henc : encChar 12 = ([92, 102] : PyStr) := rfl
                rw [henc] at hf ⊢
                cases f with
                | zero => omega
                | succ f =>
                  have hrec := ih f (by
                    simp only [List.length_append, List.length_cons, List.length_nil] at hf; omega)
                  simp only [List.cons_append, List.nil_append]
                  exact hrec
              · by_cases h13 : c = 13
                · subst h13
                  have henc : encChar 13 = ([92, 114] : PyStr) := rfl
                  rw [henc] at hf ⊢
                  cases f with
                  | zero => omega
                  | succ f =>
                    have hrec := ih f (by
                      simp only [List.length_append, List.length_cons, List.length_nil] at hf; omega)
                    simp only [List.cons_append, List.nil_append]
                    exact hrec
                · by_cases h32 : c < 32
                  · have henc : encChar c = [92, 117, 48, 48, hexDigL (c / 16), hexDigL (c % 16)] := by
                      simp only [encChar, if_neg h34, if_neg h92, if_neg h8, if_neg h9, if_neg h10, if_neg h12, if_neg h13, if_pos h32]
                    rw [henc] at hf ⊢
                    cases f with
                    | zero => omega
                    | succ f =>
                      have hrec := ih f (by
                        simp only [List.length_append, List.length_cons, List.length_nil] at hf; omega)
                      have hh1 := isHexDig_hexDigL (c / 16) (by omega)
                      have hh2 := isHexDig_hexDigL (c % 16) (Nat.mod_lt _ (by norm_num))
                      simp only [List.cons_append, List.nil_append]
                      show (isHexDig (hexDigL (c / 16)) && isHexDig (hexDigL (c % 16)) &&
                        validLitBodyAux f (s.flatMap encChar)) = true
                      rw [hh1, hh2, hrec]
                      rfl
                  · have henc : encChar c = [c] := by
                      simp only [encChar, if_neg h34, if_neg h92, if_neg h8, if_neg h9, if_neg h10, if_neg h12, if_neg h13, if_neg h32]
                    rw [henc] at hf ⊢
                    cases f with
                    | zero => omega
                    | succ f =>
                      have hrec := ih f (by
                        simp only [List.length_append, List.length_cons, List.length_nil] at hf; omega)
                      simp only [List.cons_append, List.nil_append]
                      rw [validLitBodyAux_raw f c _ h92 (by push_neg; refine ⟨h34, ?_, ?_⟩ <;> omega)]
                      exact hrec

/-! ## Theorems for C7 -/

/-- C7: for every string value `s`, decoding the literal produced by the
encoder (`json.dumps(s, ensure_ascii=False)`, the generic string-to-literal
encoder of the rewriter) yields `s` back, and the encoder output is a
syntactically valid, properly quoted string literal. -/
theorem c7_literal_roundtrip (s : PyStr) :
    decodeJsStringLiteral (encodeLiteral s) = some s ∧
      validJsLiteral (encodeLiteral s) = true := by
  have hsplit : (34 :: (s.flatMap encChar ++ [34])) = ((34 :: s.flatMap encChar) ++ [34]) :=
    rfl
  have hlast : (s.flatMap encChar ++ [34]).getLast? = some 34 := List.getLast?_concat _
  have hlast2 : (34 :: (s.flatMap encChar ++ [34])).getLast? = some 34 := by
    rw [hsplit]; exact List.getLast?_concat _
  have hlen : (34 :: (s.flatMap encChar ++ [34])).length = (s.flatMap encChar).length + 2 := by
    simp
  constructor
  · show decodeJsStringLiteral (34 :: (s.flatMap encChar ++ [34])) = some s
    unfold decodeJsStringLiteral
    rw [if_pos ⟨by rw [hlen]; omega, by rw [hlast2]; rfl, Or.inr rfl⟩]
    show decBodyAux (34 :: (s.flatMap encChar ++ [34])).length
        ((s.flatMap encChar ++ [34]).dropLast) = some s
    rw [List.dropLast_concat, hlen]
    exact decBodyAux_encChar s _ (by omega)
  · show validJsLiteral (34 :: (s.flatMap encChar ++ [34])) = true
    simp [validJsLiteral, hlast, List.dropLast_concat, hlen]
    simpa using validLitBodyAux_encChar s ((s.flatMap encChar).length + 2) (by omega)

/-! ## `_collect_aliases` (lines 245-264) -/

/-- First character of the identifier class of the regex: an ASCII letter,
underscore, or dollar. -/
def isIdStartC (c : Nat) : Bool :=
  (65 ≤ c ∧ c ≤ 90) ∨ (97 ≤ c ∧ c ≤ 122) ∨ c = 95 ∨ c = 36

/-- Subsequent identifier characters: word characters or dollar. -/
def isIdC (c : Nat) : Bool := isWordC c ∨ c = 36

/-- Maximal run of identifier characters, returning the run and the rest. -/
def takeIdChars : PyStr → PyStr × PyStr
  | [] => ([], [])
  | c :: rest =>
    if isIdC c then
      let p := takeIdChars rest
      (c :: p.1, p.2)
    else ([], c :: rest)

/-- Match one of the declaration keywords const, let or var at the head
(the alternatives have distinct first characters, so at most one applies). -/
def matchKeyword (l : PyStr) : Option PyStr :=
  match stripLit [99, 111, 110, 115, 116] l with
  | some r => some r
  | none =>
    match stripLit [108, 101, 116] l with
    | some r => some r
    | none => stripLit [118, 97, 114] l

/-- Match the alias-declaration regex of `_collect_aliases` (lines 247-249)
at the head of `l`: word boundary, keyword, one or more spaces, identifier,
optional spaces, equals sign, optional spaces, identifier, optional spaces,
semicolon.  Every greedy class here is followed by a character outside the
class, so deterministic maximal munch is exactly the regex semantics.
Returns the two identifiers and the remainder after the semicolon. -/
def matchDecl (prevW : Bool) (l : PyStr) : Option (PyStr × PyStr × PyStr) :=
  if prevW then none
  else
    match matchKeyword l with
    | none => none
    | some r1 =>
      match r1 with
      | [] => none
      | c :: _ =>
        if isSpaceC c then
          match dropSpaces r1 with
          | [] => none
          | c1 :: rest1 =>
            if isIdStartC c1 then
              let p := takeIdChars rest1
              match dropSpaces p.2 with
              | 61 :: r4 =>
                match dropSpaces r4 with
                | [] => none
                | c2 :: rest2 =>
                  if isIdStartC c2 then
                    let q := takeIdChars rest2
                    match dropSpaces q.2 with
                    | 59 :: r7 => some (c1 :: p.1, c2 :: q.1, r7)
                    | _ => none
                  else none
              | _ => none
            else none
        else none

/-- The finditer scan collecting all alias edges left to right,
non-overlapping; `prevW` tracks the word-character status of the previous
character for the boundary assertion (a semicolon, hence non-word, after
each match).  One fuel unit per scan position. -/
def findEdgesAux : Nat → Bool → PyStr → List (PyStr × PyStr)
  | 0, _, _ => []
  | _ + 1, _, [] => []
  | f + 1, prevW, c :: rest =>
    match matchDecl prevW (c :: rest) with
    | some (lhs, rhs, r) => (lhs, rhs) :: findEdgesAux f false r
    | none => findEdgesAux f (isWordC c) rest

/-- All simple identifier-to-identifier declaration edges of the text. -/
def findEdges (js : PyStr) : List (PyStr × PyStr) := findEdgesAux js.length false js

/-- One step of the closure pass: `if right in aliases and left not in
aliases: aliases.add(left)` (lines 259-262), with the Python set modelled as
a duplicate-free list. -/
def aliasStep (a : List PyStr) (e : PyStr × PyStr) : List PyStr :=
  if e.2 ∈ a ∧ ¬e.1 ∈ a then a ++ [e.1] else a

/-- One pass of the closure loop over all edges in order. -/
def onePass (edges : List (PyStr × PyStr)) (acc : List PyStr) : List PyStr :=
  edges.foldl aliasStep acc

/-- The while-changed loop (lines 256-262): run passes until one makes no
change.  Each changing pass adds at least one left-hand name, so fuel equal
to the number of edges plus one suffices to reach the fixpoint. -/
def runPasses (edges : List (PyStr × PyStr)) : Nat → List PyStr → List PyStr
  | 0, acc => acc
  | f + 1, acc =>
    let acc2 := onePass edges acc
    if acc2 = acc then acc else runPasses edges f acc2

/-- `_collect_aliases` (lines 245-264): start from the canonical decoder
name Q and close under the collected edges. -/
def collectAliases (js : PyStr) : List PyStr :=
  runPasses (findEdges js) ((findEdges js).length + 1) [[81]]

/-- A closure step only extends the set. -/
theorem aliasStep_subset (a : List PyStr) (e : PyStr × PyStr) : a ⊆ aliasStep a e := by
  unfold aliasStep
  split_ifs
  · exact List.subset_append_left _ _
  · exact List.Subset.refl _

/-- A closure pass only extends the set. -/
theorem foldl_aliasStep_subset (es : List (PyStr × PyStr)) :
    ∀ a : List PyStr, a ⊆ es.foldl aliasStep a := by
  induction es with
  | nil => intro a; exact List.Subset.refl _
  | cons e es ih => intro a; exact (aliasStep_subset a e).trans (ih (aliasStep a e))

/-- A closure pass appends new elements at the end. -/
theorem foldl_aliasStep_prefix (es : List (PyStr × PyStr)) :
    ∀ a : List PyStr, ∃ ext, es.foldl aliasStep a = a ++ ext := by
  induction es with
  | nil => intro a; exact ⟨[], by simp⟩
  | cons e es ih =>
    intro a
    obtain ⟨ext2, hext2⟩ := ih (aliasStep a e)
    rw [List.foldl_cons, hext2]
    unfold aliasStep
    split_ifs
    · exact ⟨[e.1] ++ ext2, by simp⟩
    · exact ⟨ext2, rfl⟩

/-- A closure step preserves freedom from duplicates. -/
theorem aliasStep_nodup {a : List PyStr} (e : PyStr × PyStr) (h : a.Nodup) :
    (aliasStep a e).Nodup := by
  unfold aliasStep
  split_ifs with hc
  · simp [List.nodup_append, h, List.disjoint_singleton]
    exact hc.2
  · exact h

/-- A closure pass preserves freedom from duplicates. -/
theorem foldl_aliasStep_nodup (es : List (PyStr × PyStr)) :
    ∀ a : List PyStr, a.Nodup → (es.foldl aliasStep a).Nodup := by
  induction es with
  | nil => intro a h; exact h
  | cons e es ih => intro a h; exact ih _ (aliasStep_nodup e h)

/-- Everything in a closure pass result was present before or is the
left-hand name of one of the edges. -/
theorem foldl_aliasStep_elems (es : List (PyStr × PyStr)) :
    ∀ (a : List PyStr) (x : PyStr), x ∈ es.foldl aliasStep a →
      x ∈ a ∨ x ∈ es.map Prod.fst := by
  induction es with
  | nil => intro a x hx; exact Or.inl hx
  | cons e es ih =>
    intro a x hx
    rcases ih (aliasStep a e) x hx with h | h
    · unfold aliasStep at h
      split_ifs at h with hc
      · rcases List.mem_append.mp h with h2 | h2
        · exact Or.inl h2
        · simp at h2
          subst h2
          exact Or.inr (by simp)
      · exact Or.inl h
    · exact Or.inr (by simp [h])

/-- A duplicate-free list whose members all lie in `l` is no longer
than `l`. -/
theorem nodup_subset_length {A l : List PyStr} (hA : A.Nodup)
    (hsub : ∀ x ∈ A, x ∈ l) : A.length ≤ l.length := by
  have h1 : A.toFinset.card = A.length := List.toFinset_card_of_nodup hA
  have h2 : A.toFinset ⊆ l.toFinset := by
    intro x hx
    rw [List.mem_toFinset] at hx ⊢
    exact hsub x hx
  have h3 := Finset.card_le_card h2
  have h4 : l.toFinset.card ≤ l.length := l.toFinset_card_le
  omega

/-- With fuel exceeding the number of edges, the pass loop reaches a
fixpoint of `onePass`. -/
theorem runPasses_stable (edges : List (PyStr × PyStr)) :
    ∀ (f : Nat) (acc : List PyStr), acc.Nodup →
      (∀ x ∈ acc, x ∈ ([81] : PyStr) :: edges.map Prod.fst) →
      edges.length + 1 ≤ f + acc.length →
      onePass edges (runPasses edges f acc) = runPasses edges f acc := by
  intro f
  induction f with
  | zero =>
    intro acc hnd hmem hlen
    show List.foldl aliasStep acc edges = acc
    obtain ⟨ext, hext⟩ := foldl_aliasStep_prefix edges acc
    have hnd2 : (acc ++ ext).Nodup := by
      rw [← hext]
      exact foldl_aliasStep_nodup edges acc hnd
    have hmem2 : ∀ x ∈ acc ++ ext, x ∈ ([81] : PyStr) :: edges.map Prod.fst := by
      intro x hx
      rw [← hext] at hx
      rcases foldl_aliasStep_elems edges acc x hx with h | h
      · exact hmem x h
      · exact List.mem_cons_of_mem _ h
    have hle := nodup_subset_length hnd2 hmem2
    rw [List.length_append, List.length_cons, List.length_map] at hle
    have hnil : ext = [] := by
      cases ext with
      | nil => rfl
      | cons y ys => simp at hle; omega
    rw [hext, hnil, List.append_nil]
  | succ f ih =>
    intro acc hnd hmem hlen
    show onePass edges (runPasses edges (f + 1) acc) = runPasses edges (f + 1) acc
    rw [runPasses]
    by_cases hc : onePass edges acc = acc
    · rw [if_pos hc]
      exact hc
    · rw [if_neg hc]
      apply ih
      · exact foldl_aliasStep_nodup edges acc hnd
      · intro x hx
        rcases foldl_aliasStep_elems edges acc x hx with h | h
        · exact hmem x h
        · exact List.mem_cons_of_mem _ h
      · obtain ⟨ext, hext⟩ := foldl_aliasStep_prefix edges acc
        have hne : ext ≠ [] := by
          intro hnil
          rw [hnil, List.append_nil] at hext
          exact hc hext
        have : 1 ≤ ext.length := by
          cases ext with
          | nil => exact absurd rfl hne
          | cons y ys => simp
        show edges.length + 1 ≤ f + (List.foldl aliasStep acc edges).length
        rw [hext, List.length_append]
        omega

/-- A fixpoint of a closure pass is closed under the edges. -/
theorem foldl_aliasStep_closed (es : List (PyStr × PyStr)) :
    ∀ a : List PyStr, es.foldl aliasStep a = a →
      ∀ l r, (l, r) ∈ es → r ∈ a → l ∈ a := by
  induction es with
  | nil => intro a _ l r hmem; simp at hmem
  | cons e es ih =>
    intro a h l r hmem hr
    have hsub : aliasStep a e ⊆ a := by
      intro x hx
      have hx2 : x ∈ es.foldl aliasStep (aliasStep a e) :=
        foldl_aliasStep_subset es _ hx
      rw [show es.foldl aliasStep (aliasStep a e) = a from h] at hx2
      exact hx2
    have hstep : aliasStep a e = a := by
      unfold aliasStep
      split_ifs with hc
      · exact absurd (hsub (show e.1 ∈ aliasStep a e by
          unfold aliasStep; rw [if_pos hc]; simp)) hc.2
      · rfl
    rcases List.mem_cons.mp hmem with he | he
    · subst he
      by_contra hl
      have habs : aliasStep a (l, r) = a ++ [l] := by
        unfold aliasStep
        rw [if_pos ⟨hr, hl⟩]
      rw [hstep] at habs
      have := congrArg List.length habs
      simp at this
    · exact ih a (by rw [List.foldl_cons, hstep] at h; exact h) l r he hr

/-- Reachability of the canonical decoder name Q along alias edges. -/
def reachesQ (edges : List (PyStr × PyStr)) (x : PyStr) : Prop :=
  Relation.ReflTransGen (fun a b => (a, b) ∈ edges) x [81]

/-- A closure pass only adds names that reach Q, provided the processed
edges all belong to the full edge list. -/
theorem foldl_aliasStep_reaches (edges : List (PyStr × PyStr)) :
    ∀ es : List (PyStr × PyStr), (∀ e ∈ es, e ∈ edges) →
      ∀ a : List PyStr, (∀ x ∈ a, reachesQ edges x) →
      ∀ x ∈ es.foldl aliasStep a, reachesQ edges x := by
  intro es
  induction es with
  | nil => intro _ a ha x hx; exact ha x hx
  | cons e es ih =>
    intro hes a ha x hx
    refine ih (fun e2 he2 => hes e2 (List.mem_cons_of_mem _ he2)) (aliasStep a e) ?_ x hx
    intro y hy
    unfold aliasStep at hy
    split_ifs at hy with hc
    · rcases List.mem_append.mp hy with h2 | h2
      · exact ha y h2
      · simp at h2
        subst h2
        refine Relation.ReflTransGen.head ?_ (ha e.2 hc.1)
        simpa using hes e (by simp)
    · exact ha y hy

/-- All passes only add names that reach Q. -/
theorem runPasses_reaches (edges : List (PyStr × PyStr)) :
    ∀ (f : Nat) (acc : List PyStr), (∀ x ∈ acc, reachesQ edges x) →
      ∀ x ∈ runPasses edges f acc, reachesQ edges x := by
  intro f
  induction f with
  | zero => intro acc ha x hx; exact ha x hx
  | succ f ih =>
    intro acc ha x hx
    rw [runPasses] at hx
    split_ifs at hx with hc
    · exact ha x hx
    · exact ih (onePass edges acc)
        (foldl_aliasStep_reaches edges edges (fun _ h => h) acc ha) x hx

/-- The starting set survives every pass. -/
theorem subset_runPasses (edges : List (PyStr × PyStr)) :
    ∀ (f : Nat) (acc : List PyStr), acc ⊆ runPasses edges f acc := by
  intro f
  induction f with
  | zero => intro acc; exact List.Subset.refl _
  | succ f ih =>
    intro acc
    rw [runPasses]
    split_ifs with hc
    · exact List.Subset.refl _
    · exact (foldl_aliasStep_subset edges acc).trans (ih (onePass edges acc))

/-! ## Theorems for C6 -/

/-- C6: for every source text, the alias resolver returns exactly the names
that reach the canonical decoder name Q through the backward transitive
closure of the simple identifier-to-identifier declaration edges; Q itself
is always a member; and for the declarations
const a=Q; const b=a; const c=b; the result is exactly Q, a, b, c. -/
theorem c6_alias_closure :
    (∀ js : PyStr, [81] ∈ collectAliases js) ∧
      (∀ (js : PyStr) (x : PyStr), x ∈ collectAliases js ↔
        Relation.ReflTransGen (fun a b => (a, b) ∈ findEdges js) x [81]) ∧
      collectAliases (cp ("const a=Q;const b=a;const c=b;")) =
        [cp ("Q"), cp ("a"), cp ("b"), cp ("c")] := by
  have hmemQ : ∀ js : PyStr, [81] ∈ collectAliases js := fun js =>
    subset_runPasses (findEdges js) _ _ (by simp)
  refine ⟨hmemQ, fun js x => ⟨?_, ?_⟩, by decide⟩
  · intro hx
    refine runPasses_reaches (findEdges js) _ _ ?_ x hx
    intro y hy
    simp at hy
    subst hy
    exact Relation.ReflTransGen.refl
  · intro hrtg
    have hstable := runPasses_stable (findEdges js) ((findEdges js).length + 1) [[81]]
      (by simp) (by intro y hy; simp at hy; simp [hy]) (by omega)
    have hclosed := foldl_aliasStep_closed (findEdges js) (collectAliases js) hstable
    induction hrtg using Relation.ReflTransGen.head_induction_on with
    | refl => exact hmemQ js
    | head hab _ ih => exact hclosed _ _ hab ih

/-! ## The call-site rewriter `replace` and `call_re.sub` (lines 303-316) -/

/-- Maximal run of hexadecimal digit characters, returning run and rest. -/
def takeHexChars : PyStr → PyStr × PyStr
  | [] => ([], [])
  | c :: rest =>
    if isHexDig c then
      let p := takeHexChars rest
      (c :: p.1, p.2)
    else ([], c :: rest)

/-- Value of a run of hexadecimal digits (`int(m.group(2), 16)`, where the
group text carries the 0x prefix that base-16 int accepts). -/
def hexValAux : PyStr → Nat → Nat
  | [], acc => acc
  | c :: rest, acc => hexValAux rest (acc * 16 + (hexDigitVal c).getD 0)

/-- Attempt to match the call regex (line 303) at the head of `l`: word
boundary, identifier, opening parenthesis, optional spaces, literal 0x, one
or more hex digits, optional spaces, closing parenthesis.  Greedy classes
are each followed by a character outside the class, so maximal munch is
exactly the regex semantics.  Returns the identifier, the hex value of the
index, and the remainder of the text after the match. -/
def tryCall (prevW : Bool) (l : PyStr) : Option (PyStr × Nat × PyStr) :=
  match l with
  | [] => none
  | c :: rest =>
    if isIdStartC c ∧ prevW ≠ isWordC c then
      match takeIdChars rest with
      | (pid, p2) =>
        match p2 with
        | [] => none
        | b1 :: r1 =>
          if b1 = 40 then
            match dropSpaces r1 with
            | b2 :: b3 :: r3 =>
              if b2 = 48 ∧ b3 = 120 then
                match takeHexChars r3 with
                | (qd, q2) =>
                  if qd.isEmpty then none
                  else
                    match dropSpaces q2 with
                    | [] => none
                    | b4 :: r5 =>
                      if b4 = 41 then some (c :: pid, hexValAux qd 0, r5) else none
              else none
            | _ => none
          else none
    else none

/-- The sub scan of `call_re.sub(replace, src)` (line 316), one fuel unit
per scan position: at each position try the call pattern; on a match apply
`replace` (lines 306-314): an identifier outside the alias set reproduces
the whole match verbatim, an alias is rewritten to the JSON-encoded decoded
string of its index (the decode cache is omitted: decode is deterministic
over the frozen table, so the cache is semantically transparent); an
out-of-range decode raises IndexError and aborts the run (`none`).  On no
match the character is copied and scanning advances one position. -/
def rewriteAux (al tbl : List PyStr) (off : Int) : Nat → Bool → PyStr → Option PyStr
  | _, _, [] => some []
  | 0, _, _ :: _ => none
  | f + 1, prevW, c :: rest =>
    match tryCall prevW (c :: rest) with
    | some (name, v, r) =>
      if name ∈ al then
        match pyDecode tbl off v with
        | some s => (rewriteAux al tbl off f false r).map (fun t => encodeLiteral s ++ t)
        | none => none
      else
        (rewriteAux al tbl off f false r).map
          (fun t => (c :: rest).take ((c :: rest).length - r.length) ++ t)
    | none => (rewriteAux al tbl off f (isWordC c) rest).map (fun t => c :: t)

/-- The rewriter on a whole text. -/
def rewriteCalls (al tbl : List PyStr) (off : Int) (text : PyStr) : Option PyStr :=
  rewriteAux al tbl off text.length false text

/-- A piece of the sub decomposition: either a character outside every
match, or one match carrying its full text, identifier and index value. -/
inductive RwChunk where
  | raw (c : Nat)
  | call (full : PyStr) (name : PyStr) (v : Nat)
deriving DecidableEq

/-- The decomposition of the text into non-match characters and matches,
produced by the same left-to-right non-overlapping scan as the rewrite. -/
def chunksAux : Nat → Bool → PyStr → List RwChunk
  | _, _, [] => []
  | 0, _, _ :: _ => []
  | f + 1, prevW, c :: rest =>
    match tryCall prevW (c :: rest) with
    | some (name, v, r) =>
      RwChunk.call ((c :: rest).take ((c :: rest).length - r.length)) name v ::
        chunksAux f false r
    | none => RwChunk.raw c :: chunksAux f (isWordC c) rest

/-- The decomposition of a whole text. -/
def chunksOf (text : PyStr) : List RwChunk := chunksAux text.length false text

/-- Reassembling the original text from its decomposition. -/
def renderOrig : List RwChunk → PyStr
  | [] => []
  | RwChunk.raw c :: cs => c :: renderOrig cs
  | RwChunk.call full _ _ :: cs => full ++ renderOrig cs

/-- Reassembling the rewritten text: raw characters unchanged, matches
through an identifier outside the alias set unchanged, alias matches
replaced by the encoded literal of the decoded string for their index. -/
def renderRw (al tbl : List PyStr) (off : Int) : List RwChunk → Option PyStr
  | [] => some []
  | RwChunk.raw c :: cs => (renderRw al tbl off cs).map (fun t => c :: t)
  | RwChunk.call full name v :: cs =>
    if name ∈ al then
      match pyDecode tbl off v with
      | some s => (renderRw al tbl off cs).map (fun t => encodeLiteral s ++ t)
      | none => none
    else (renderRw al tbl off cs).map (fun t => full ++ t)

/-- The identifiers of the call matches in a decomposition. -/
def callNames : List RwChunk → List PyStr
  | [] => []
  | RwChunk.raw _ :: cs => callNames cs
  | RwChunk.call _ name _ :: cs => name :: callNames cs

/-- Dropping spaces yields a suffix. -/
theorem dropSpaces_suffix : ∀ l : PyStr, dropSpaces l <:+ l := by
  intro l
  induction l with
  | nil => exact List.suffix_rfl
  | cons c rest ih =>
    rw [dropSpaces]
    split_ifs
    · exact ih.trans (List.suffix_cons c rest)
    · exact List.suffix_rfl

/-- The rest after an identifier run is a suffix. -/
theorem takeIdChars_suffix : ∀ l : PyStr, (takeIdChars l).2 <:+ l := by
  intro l
  induction l with
  | nil => exact List.suffix_rfl
  | cons c rest ih =>
    rw [takeIdChars]
    split_ifs
    · exact ih.trans (List.suffix_cons c rest)
    · exact List.suffix_rfl

/-- The rest after a hex-digit run is a suffix. -/
theorem takeHexChars_suffix : ∀ l : PyStr, (takeHexChars l).2 <:+ l := by
  intro l
  induction l with
  | nil => exact List.suffix_rfl
  | cons c rest ih =>
    rw [takeHexChars]
    split_ifs
    · exact ih.trans (List.suffix_cons c rest)
    · exact List.suffix_rfl

/-- A successful call match consumes at least one character and leaves a
suffix of the input. -/
theorem tryCall_suffix {prevW : Bool} {l name : PyStr} {v : Nat} {r : PyStr}
    (h : tryCall prevW l = some (name, v, r)) : r <:+ l ∧ r.length < l.length := by
  cases l with
  | nil => simp [tryCall] at h
  | cons c rest =>
    rw [tryCall] at h
    rcases hP : takeIdChars rest with ⟨pid, p2⟩
    rw [hP] at h
    have hp2 : p2 <:+ rest := by
      have hs := takeIdChars_suffix rest
      rw [hP] at hs
      exact hs
    split_ifs at h
    cases p2 with
    | nil => simp at h
    | cons b1 r1 =>
      simp only [] at h
      by_cases hb1 : b1 = 40
      case neg => rw [if_neg hb1] at h; exact absurd h (by simp)
      subst hb1
      rw [if_pos rfl] at h
      have hr1 : r1 <:+ rest := (List.suffix_cons 40 r1).trans hp2
      rcases hD : dropSpaces r1 with _ | ⟨b2, _ | ⟨b3, r3⟩⟩ <;> rw [hD] at h <;>
        simp only [] at h
      · exact absurd h (by simp)
      · exact absurd h (by simp)
      by_cases hbx : b2 = 48 ∧ b3 = 120
      case neg => rw [if_neg hbx] at h; exact absurd h (by simp)
      rw [if_pos hbx] at h
      have hr3 : r3 <:+ rest := by
        have hds : (b2 :: b3 :: r3) <:+ r1 := by
          rw [← hD]
          exact dropSpaces_suffix r1
        exact ((List.suffix_cons b3 r3).trans ((List.suffix_cons b2 _).trans hds)).trans hr1
      rcases hQ : takeHexChars r3 with ⟨qd, q2⟩
      rw [hQ] at h
      simp only [] at h
      have hq2 : q2 <:+ rest := by
        have hs := takeHexChars_suffix r3
        rw [hQ] at hs
        exact hs.trans hr3
      by_cases hqe : qd.isEmpty
      case pos => rw [if_pos hqe] at h; exact absurd h (by simp)
      rw [if_neg hqe] at h
      rcases hE : dropSpaces q2 with _ | ⟨b4, r5⟩ <;> rw [hE] at h <;>
        simp only [] at h
      · exact absurd h (by simp)
      by_cases hb4 : b4 = 41
      case neg => rw [if_neg hb4] at h; exact absurd h (by simp)
      subst hb4
      rw [if_pos rfl] at h
      simp only [Option.some.injEq, Prod.mk.injEq] at h
      obtain ⟨-, -, hr⟩ := h
      subst hr
      have s1 : (41 :: r5) <:+ q2 := by
        rw [← hE]
        exact dropSpaces_suffix q2
      have s6 : (41 :: r5) <:+ rest := s1.trans hq2
      refine ⟨(List.suffix_cons 41 r5).trans (s6.trans (List.suffix_cons c rest)), ?_⟩
      have hle := s6.length_le
      simp only [List.length_cons] at hle ⊢
      omega

/-- Reattaching the matched span to the rest recovers the input. -/
theorem suffix_take_append {l r : PyStr} (h : r <:+ l) :
    l.take (l.length - r.length) ++ r = l := by
  obtain ⟨t, rfl⟩ := h
  rw [List.length_append]
  have heq : t.length + r.length - r.length = t.length := by omega
  rw [heq, List.take_left]

/-- The rewrite scan agrees with the decomposition: the rewriter output is
the rendering of the chunks, and the chunks reassemble to the input. -/
theorem rewriteAux_renders (al tbl : List PyStr) (off : Int) :
    ∀ (f : Nat) (prevW : Bool) (l : PyStr), l.length ≤ f →
      rewriteAux al tbl off f prevW l = renderRw al tbl off (chunksAux f prevW l) ∧
      renderOrig (chunksAux f prevW l) = l := by
  intro f
  induction f with
  | zero =>
    intro prevW l hl
    have hnil : l = [] := List.eq_nil_of_length_eq_zero (by omega)
    subst hnil
    exact ⟨rfl, rfl⟩
  | succ f ih =>
    intro prevW l hl
    cases l with
    | nil => exact ⟨rfl, rfl⟩
    | cons c rest =>
      cases htc : tryCall prevW (c :: rest) with
      | none =>
        have hr := ih (isWordC c) rest (by simp only [List.length_cons] at hl; omega)
        constructor
        · simp only [rewriteAux, chunksAux, htc, renderRw]
          rw [hr.1]
        · simp only [chunksAux, htc, renderOrig]
          rw [hr.2]
      | some nvr =>
        obtain ⟨name, v, r⟩ := nvr
        obtain ⟨hsuf, hlen⟩ := tryCall_suffix htc
        have hr := ih false r (by
          simp only [List.length_cons] at hlen hl
          omega)
        have hfull := suffix_take_append hsuf
        constructor
        · simp only [rewriteAux, chunksAux, htc, renderRw]
          by_cases hal : name ∈ al
          · rw [if_pos hal, if_pos hal]
            cases pyDecode tbl off v with
            | none => rfl
            | some s => rw [hr.1]
          · rw [if_neg hal, if_neg hal, hr.1]
        · simp only [chunksAux, htc, renderOrig]
          rw [hr.2]
          exact hfull

/-- When no call chunk carries an alias name, rendering the rewrite
reproduces the original text. -/
theorem renderRw_no_alias (al tbl : List PyStr) (off : Int) :
    ∀ cs : List RwChunk, (∀ n ∈ callNames cs, n ∉ al) →
      renderRw al tbl off cs = some (renderOrig cs) := by
  intro cs
  induction cs with
  | nil => intro _; rfl
  | cons ch cs ih =>
    intro h
    cases ch with
    | raw c =>
      simp only [renderRw, renderOrig]
      rw [ih (fun n hn => h n (by simp [callNames, hn]))]
      rfl
    | call full name v =>
      have hname : name ∉ al := h name (by simp [callNames])
      simp only [renderRw, renderOrig]
      rw [if_neg hname, ih (fun n hn => h n (by simp [callNames, hn]))]
      rfl

/-! ## Theorems for C9 and C10 -/

/-- C9: on a text with no remaining alias-decoder call pattern (every match
of the call regex has its identifier outside the alias set), the rewriter is
a no-op: the output equals the input, and in particular every call through a
non-alias identifier is left untouched. -/
theorem c9_rewriter_noop (al tbl : List PyStr) (off : Int) (text : PyStr)
    (h : ∀ n ∈ callNames (chunksOf text), n ∉ al) :
    rewriteCalls al tbl off text = some text := by
  have key := rewriteAux_renders al tbl off text.length false text (le_refl _)
  calc rewriteCalls al tbl off text
      = renderRw al tbl off (chunksOf text) := key.1
    _ = some (renderOrig (chunksOf text)) := renderRw_no_alias al tbl off _ h
    _ = some text := by rw [show renderOrig (chunksOf text) = text from key.2]

/-- C9 witness: a call through `foo`, not an alias of `Q`, is untouched. -/
theorem c9_rewriter_noop_witness :
    (∀ n ∈ callNames (chunksOf (cp ("foo(0x1)"))), n ∉ [cp ("Q")]) ∧
      rewriteCalls [cp ("Q")] [] 0 (cp ("foo(0x1)")) = some (cp ("foo(0x1)")) :=
  ⟨by decide, c9_rewriter_noop [cp ("Q")] [] 0 (cp ("foo(0x1)")) (by decide)⟩

/-- C10: the rewriter output is character-for-character the input outside
the substrings matched by the call pattern: the text decomposes into raw
characters and matches (`renderOrig` of `chunksOf` is the identity), and the
output is exactly that decomposition re-rendered, with each alias match
replaced by the encoded literal of the decoded string for its index and
every other piece kept verbatim (`renderRw`). -/
theorem c10_rewriter_frame (al tbl : List PyStr) (off : Int) (text : PyStr) :
    renderOrig (chunksOf text) = text ∧
      rewriteCalls al tbl off text = renderRw al tbl off (chunksOf text) := by
  have key := rewriteAux_renders al tbl off text.length false text (le_refl _)
  exact ⟨key.2, key.1⟩

/-! ## The rotation-loop expression evaluator (lines 278-299) -/

/-- Addition on rationals in a kernel-computable form (the library's
arithmetic on `Rat` is irreducible; `Rat.divInt` normalizes, keeping the
representation identical to Python's `Fraction`). -/
def qAdd (a b : Rat) : Rat :=
  Rat.divInt (a.num * b.den + b.num * a.den) (a.den * b.den)

/-- Subtraction on rationals, kernel-computable. -/
def qSub (a b : Rat) : Rat :=
  Rat.divInt (a.num * b.den - b.num * a.den) (a.den * b.den)

/-- Multiplication on rationals, kernel-computable. -/
def qMul (a b : Rat) : Rat := Rat.divInt (a.num * b.num) (a.den * b.den)

/-- Division on rationals, kernel-computable (callers exclude a zero
divisor). -/
def qDiv (a b : Rat) : Rat := Rat.divInt (a.num * b.den) (a.den * b.num)

/-- Absolute value on rationals, kernel-computable. -/
def qAbs (a : Rat) : Rat := if a.num < 0 then Rat.neg a else a

/-- The rational one half. -/
def qHalf : Rat := Rat.divInt 1 2

/-- Computable floor of a rational. -/
def qFloor (q : Rat) : Int := Int.fdiv q.num q.den

/-- Round a rational to the nearest integer, ties to even. -/
def roundHalfEven (q : Rat) : Int :=
  let f := qFloor q
  let r := qSub q (Rat.divInt f 1)
  if r < qHalf then f
  else if qHalf < r then f + 1
  else if f % 2 = 0 then f else f + 1

/-- Two to an integer power, as a rational, kernel-computable. -/
def pw2 (e : Int) : Rat :=
  if 0 ≤ e then Rat.divInt ((2 : Int) ^ e.toNat) 1
  else Rat.divInt 1 ((2 : Int) ^ (-e).toNat)

/-- Binary exponent search, upward: halve until below two. -/
def ilog2Up : Nat → Rat → Int → Int
  | 0, _, e => e
  | f + 1, x, e => if x < 2 then e else ilog2Up f (qDiv x 2) (e + 1)

/-- Binary exponent search, downward: double until at least one. -/
def ilog2Down : Nat → Rat → Int → Int
  | 0, _, e => e
  | f + 1, x, e => if 1 ≤ x then e else ilog2Down f (qMul x 2) (e - 1)

/-- The binary exponent of a positive rational: the `e` with
`2 ^ e ≤ a < 2 ^ (e + 1)`.  The fuel covers `|e| ≤ 4400`, far beyond the
double range; the claims evaluate it only well inside that range. -/
def qlog2 (a : Rat) : Int :=
  if 1 ≤ a then ilog2Up 4400 a 0 else ilog2Down 4400 a 0

/-- Round a rational to the nearest IEEE-754 binary64 value (53-bit
significand, round half to even), represented by its exact rational value.
Overflow to infinity and subnormal underflow are not modelled. -/
def roundD (q : Rat) : Rat :=
  if q = 0 then 0
  else
    let a := qAbs q
    let e := qlog2 a
    let m := roundHalfEven (qMul a (pw2 (52 - e)))
    let v := qMul (Rat.divInt m 1) (pw2 (e - 52))
    if q < 0 then Rat.neg v else v

/-- A Python runtime value arising during evaluation of the convergence
expression: int, float (stored as its exact rational value), Fraction, or
str. -/
inductive PyVal where
  | intv (n : Int)
  | floatv (q : Rat)
  | fracv (q : Rat)
  | strv (s : PyStr)
deriving DecidableEq

/-- Binary arithmetic operators of the restricted expression grammar. -/
inductive JSOp where
  | add
  | sub
  | mul
  | div
deriving DecidableEq

/-- The restricted convergence-expression grammar: integer literals
(hex or decimal), unary minus, binary arithmetic, decode calls and
parseInt coercion. -/
inductive JSExpr where
  | intLit (n : Nat)
  | neg (e : JSExpr)
  | bin (op : JSOp) (a b : JSExpr)
  | decodeCall (e : JSExpr)
  | parseIntCall (e : JSExpr)
deriving DecidableEq

/-- Exact Fraction arithmetic (`fractions.Fraction`); division by zero
raises. -/
def fracBin : JSOp → Rat → Rat → Option PyVal
  | .add, a, b => some (.fracv (qAdd a b))
  | .sub, a, b => some (.fracv (qSub a b))
  | .mul, a, b => some (.fracv (qMul a b))
  | .div, a, b => if b = 0 then none else some (.fracv (qDiv a b))

/-- Python float arithmetic: each operation is correctly rounded to
binary64; division by zero raises. -/
def fltBin : JSOp → Rat → Rat → Option PyVal
  | .add, a, b => some (.floatv (roundD (qAdd a b)))
  | .sub, a, b => some (.floatv (roundD (qSub a b)))
  | .mul, a, b => some (.floatv (roundD (qMul a b)))
  | .div, a, b => if b = 0 then none else some (.floatv (roundD (qDiv a b)))

/-- Python binary arithmetic on runtime values: int op int is exact except
true division, which produces a correctly rounded float; Fraction mixed
with int or Fraction is exact; any float operand converts the other operand
to float (rounded) and rounds the result; strings concatenate under
addition and repeat under multiplication by an int, and every other
combination raises TypeError. -/
def pyBin : JSOp → PyVal → PyVal → Option PyVal
  | op, .intv a, .intv b =>
    (match op with
     | .add => some (.intv (a + b))
     | .sub => some (.intv (a - b))
     | .mul => some (.intv (a * b))
     | .div => if b = 0 then none else some (.floatv (roundD (qDiv (a : Rat) (b : Rat)))))
  | op, .fracv a, .fracv b => fracBin op a b
  | op, .fracv a, .intv b => fracBin op a (b : Rat)
  | op, .intv a, .fracv b => fracBin op (a : Rat) b
  | op, .floatv a, .floatv b => fltBin op a b
  | op, .floatv a, .intv b => fltBin op a (roundD (b : Rat))
  | op, .intv a, .floatv b => fltBin op (roundD (a : Rat)) b
  | op, .floatv a, .fracv b => fltBin op a (roundD b)
  | op, .fracv a, .floatv b => fltBin op (roundD a) b
  | .add, .strv a, .strv b => some (.strv (a ++ b))
  | .mul, .strv a, .intv n => some (.strv (List.flatten (List.replicate n.toNat a)))
  | .mul, .intv n, .strv a => some (.strv (List.flatten (List.replicate n.toNat a)))
  | _, _, _ => none

/-- Python unary minus. -/
def pyNeg : PyVal → Option PyVal
  | .intv n => some (.intv (-n))
  | .fracv q => some (.fracv (Rat.neg q))
  | .floatv q => some (.floatv (Rat.neg q))
  | .strv _ => none

/-- Decimal digits of a natural number, most significant first. -/
def natDigitsAux : Nat → Nat → PyStr → PyStr
  | 0, _, acc => acc
  | _ + 1, 0, acc => acc
  | f + 1, n, acc => natDigitsAux f (n / 10) ((48 + n % 10) :: acc)

/-- Python str() of a natural number. -/
def natToDec (n : Nat) : PyStr := if n = 0 then [48] else natDigitsAux (n + 1) n []

/-- Python str() of an int. -/
def intToDec (i : Int) : PyStr :=
  if i < 0 then 45 :: natToDec i.natAbs else natToDec i.toNat

/-- Python str() of a Fraction: numerator, or numerator-slash-denominator
(both values kept normalized, as `fractions.Fraction` does). -/
def fracToStr (q : Rat) : PyStr :=
  if q.den = 1 then intToDec q.num
  else intToDec q.num ++ [47] ++ natToDec q.den

/-- Python str() of a runtime value.  str of a float (shortest round-trip
repr) is not modelled (`none`); no claim depends on it, and a float reaching
parseInt already witnesses rounding. -/
def pyStrOf : PyVal → Option PyStr
  | .strv s => some s
  | .intv n => some (intToDec n)
  | .fracv q => some (fracToStr q)
  | .floatv _ => none

/-- Is this a decimal digit character? -/
def isDigitC (c : Nat) : Bool := 48 ≤ c ∧ c ≤ 57

/-- Maximal run of decimal digits, returning run and rest. -/
def takeDigits : PyStr → PyStr × PyStr
  | [] => ([], [])
  | c :: rest =>
    if isDigitC c then
      let p := takeDigits rest
      (c :: p.1, p.2)
    else ([], c :: rest)

/-- Decimal value of a digit run. -/
def decValAux : PyStr → Nat → Nat
  | [], acc => acc
  | c :: rest, acc => decValAux rest (acc * 10 + (c - 48))

/-- The unsigned part of `parse_int`. -/
def parseIntBody (u : PyStr) (sign : Int) : Option Rat :=
  match u with
  | 48 :: 120 :: rest =>
    (match takeHexChars rest with
     | ([], _) => some 0
     | (d :: ds, _) => some ((sign * (hexValAux (d :: ds) 0 : Int) : Int) : Rat))
  | _ =>
    match takeDigits u with
    | ([], _) => none
    | (d :: ds, _) =>
      if (d :: ds).all (fun c => c = 48) then some 0
      else if d = 48 then none
      else some ((sign * (decValAux (d :: ds) 0 : Int) : Int) : Rat)

/-- `parse_int` (lines 280-285): strip the string, match an optional sign
followed by either a lowercase-0x hex run or a decimal digit run (the hex
alternative needs at least one digit, otherwise the digit alternative
matches the single zero), then evaluate the match with `int(_, 0)`: hex is
read directly; a decimal run of all zeros is zero, any other run with a
leading zero raises ValueError (base-0 literal rules), and the rest read as
decimal.  No match at all raises ValueError.  The result is wrapped in an
exact Fraction. -/
def parseIntVal (s : PyStr) : Option Rat :=
  match stripWs s with
  | 43 :: u => parseIntBody u 1
  | 45 :: u => parseIntBody u (-1)
  | u => parseIntBody u 1

/-- Evaluation of a convergence expression under Python semantics against
the current table state: `eval(k_expr, env)` with `decode` bound to the
table indexing closure and `parse_int` to the Fraction coercion
(lines 287-292).  Any exception is `none` (caught by the loop's
try-except). -/
def pyEvalExpr (tbl : List PyStr) (off : Int) : JSExpr → Option PyVal
  | .intLit n => some (.intv n)
  | .neg e =>
    (match pyEvalExpr tbl off e with
     | some v => pyNeg v
     | none => none)
  | .bin op a b =>
    (match pyEvalExpr tbl off a, pyEvalExpr tbl off b with
     | some va, some vb => pyBin op va vb
     | _, _ => none)
  | .decodeCall e =>
    (match pyEvalExpr tbl off e with
     | some (.intv n) => (pyDecode tbl off n).map PyVal.strv
     | some _ => none
     | none => none)
  | .parseIntCall e =>
    (match pyEvalExpr tbl off e with
     | some v =>
       (match pyStrOf v with
        | some s => (parseIntVal s).map PyVal.fracv
        | none => none)
     | none => none)

/-- Modelled from the spec: exact Fraction arithmetic for every operator,
so integer division is an exact rational and floats never arise. -/
def exBin : JSOp → PyVal → PyVal → Option PyVal
  | op, .intv a, .intv b =>
    (match op with
     | .add => some (.intv (a + b))
     | .sub => some (.intv (a - b))
     | .mul => some (.intv (a * b))
     | .div => if b = 0 then none else some (.fracv (qDiv (a : Rat) (b : Rat))))
  | op, .fracv a, .fracv b => fracBin op a b
  | op, .fracv a, .intv b => fracBin op a (b : Rat)
  | op, .intv a, .fracv b => fracBin op (a : Rat) b
  | .add, .strv a, .strv b => some (.strv (a ++ b))
  | .mul, .strv a, .intv n => some (.strv (List.flatten (List.replicate n.toNat a)))
  | .mul, .intv n, .strv a => some (.strv (List.flatten (List.replicate n.toNat a)))
  | _, _, _ => none

/-- Modelled from the spec: numeric evaluation in exact rational arithmetic
with no floating-point rounding; identical to the Python evaluation except
that every arithmetic operation, integer division included, is exact. -/
def exEvalExpr (tbl : List PyStr) (off : Int) : JSExpr → Option PyVal
  | .intLit n => some (.intv n)
  | .neg e =>
    (match exEvalExpr tbl off e with
     | some v => pyNeg v
     | none => none)
  | .bin op a b =>
    (match exEvalExpr tbl off a, exEvalExpr tbl off b with
     | some va, some vb => exBin op va vb
     | _, _ => none)
  | .decodeCall e =>
    (match exEvalExpr tbl off e with
     | some (.intv n) => (pyDecode tbl off n).map PyVal.strv
     | some _ => none
     | none => none)
  | .parseIntCall e =>
    (match exEvalExpr tbl off e with
     | some v =>
       (match pyStrOf v with
        | some s => (parseIntVal s).map PyVal.fracv
        | none => none)
     | none => none)

/-- The convergence comparison `k_val == target` with the target wrapped in
an exact Fraction (line 288): exact for int, Fraction and float values
(Python compares a float with a Fraction exactly), false for strings. -/
def pyEqTarget (v : PyVal) (t : Int) : Bool :=
  match v with
  | .intv n => n = t
  | .fracv q => q = (t : Rat)
  | .floatv q => q = (t : Rat)
  | .strv _ => false

/-- One rotation attempt converges when evaluation succeeds and the value
equals the target; an evaluation error counts as not converged
(lines 290-296). -/
def pyConverged (e : JSExpr) (tbl : List PyStr) (off : Int) (t : Int) : Bool :=
  match pyEvalExpr tbl off e with
  | some v => pyEqTarget v t
  | none => false

/-- Modelled from the spec: the convergence test under exact rational
evaluation. -/
def exConverged (e : JSExpr) (tbl : List PyStr) (off : Int) (t : Int) : Bool :=
  match exEvalExpr tbl off e with
  | some v => pyEqTarget v t
  | none => false

/-- Value types of the restricted grammar used to delimit the float-free
fragment. -/
inductive PyTy where
  | intT
  | fracT
  | strT
deriving DecidableEq

/-- Result type of a Python binary operation on float-free operand types;
`none` marks combinations that produce a float (int true division) or raise
TypeError. -/
def opTy : JSOp → PyTy → PyTy → Option PyTy
  | op, .intT, .intT =>
    (match op with
     | .div => none
     | _ => some .intT)
  | _, .intT, .fracT => some .fracT
  | _, .fracT, .intT => some .fracT
  | _, .fracT, .fracT => some .fracT
  | .add, .strT, .strT => some .strT
  | .mul, .strT, .intT => some .strT
  | .mul, .intT, .strT => some .strT
  | _, _, _ => none

/-- Static typing of an expression within the float-free fragment: defined
exactly when no subterm can produce a float value. -/
def floatFreeTy : JSExpr → Option PyTy
  | .intLit _ => some .intT
  | .neg e =>
    (match floatFreeTy e with
     | some .intT => some .intT
     | some .fracT => some .fracT
     | _ => none)
  | .bin op a b =>
    (match floatFreeTy a, floatFreeTy b with
     | some ta, some tb => opTy op ta tb
     | _, _ => none)
  | .decodeCall e =>
    (match floatFreeTy e with
     | some .intT => some .strT
     | _ => none)
  | .parseIntCall e =>
    (match floatFreeTy e with
     | some _ => some .fracT
     | none => none)

/-- The type of a runtime value, defined for non-float values. -/
def valTy : PyVal → Option PyTy
  | .intv _ => some .intT
  | .fracv _ => some .fracT
  | .strv _ => some .strT
  | .floatv _ => none

/-- On float-free operand types, the Python binary operation coincides with
the exact one and its result has the inferred type. -/
theorem pyBin_exact (op : JSOp) (va vb : PyVal) (ta tb t : PyTy)
    (ha : valTy va = some ta) (hb : valTy vb = some tb)
    (ht : opTy op ta tb = some t) :
    pyBin op va vb = exBin op va vb ∧
      ∀ v, pyBin op va vb = some v → valTy v = some t := by
  cases va <;> cases vb <;> cases op <;> cases ta <;> cases tb <;>
    simp_all [valTy, opTy, pyBin, exBin, fracBin, fltBin]

/-- A value of type int is an int. -/
theorem valTy_intT {v : PyVal} (h : valTy v = some PyTy.intT) : ∃ n, v = PyVal.intv n := by
  cases v <;> simp_all [valTy]

/-- A value of type Fraction is a Fraction. -/
theorem valTy_fracT {v : PyVal} (h : valTy v = some PyTy.fracT) : ∃ q, v = PyVal.fracv q := by
  cases v <;> simp_all [valTy]

/-- On the float-free fragment, Python evaluation coincides with exact
rational evaluation, and the result carries the inferred type. -/
theorem eval_exact (tbl : List PyStr) (off : Int) :
    ∀ (e : JSExpr) (ty : PyTy), floatFreeTy e = some ty →
      pyEvalExpr tbl off e = exEvalExpr tbl off e ∧
      ∀ v, pyEvalExpr tbl off e = some v → valTy v = some ty := by
  intro e
  induction e with
  | intLit n =>
    intro ty h
    simp only [floatFreeTy, Option.some.injEq] at h
    subst h
    refine ⟨rfl, ?_⟩
    intro v hv
    simp only [pyEvalExpr, Option.some.injEq] at hv
    subst hv
    rfl
  | neg e ih =>
    intro ty h
    simp only [floatFreeTy] at h
    cases hfe : floatFreeTy e with
    | none => rw [hfe] at h; simp at h
    | some te =>
      rw [hfe] at h
      obtain ⟨heq, hty⟩ := ih te hfe
      have hstep : ∀ v, pyEvalExpr tbl off (JSExpr.neg e) = some v → ∃ w,
          pyEvalExpr tbl off e = some w ∧ pyNeg w = some v := by
        intro v hv
        simp only [pyEvalExpr] at hv
        cases hw : pyEvalExpr tbl off e with
        | none => rw [hw] at hv; exact absurd hv (by simp)
        | some w => rw [hw] at hv; exact ⟨w, rfl, hv⟩
      have heval : pyEvalExpr tbl off (JSExpr.neg e) = exEvalExpr tbl off (JSExpr.neg e) := by
        simp only [pyEvalExpr, exEvalExpr, heq]
      cases te with
      | strT => simp at h
      | intT =>
        simp only [Option.some.injEq] at h
        subst h
        refine ⟨heval, ?_⟩
        intro v hv
        obtain ⟨w, hw, hnw⟩ := hstep v hv
        obtain ⟨n, rfl⟩ := valTy_intT (hty w hw)
        simp only [pyNeg, Option.some.injEq] at hnw
        subst hnw
        rfl
      | fracT =>
        simp only [Option.some.injEq] at h
        subst h
        refine ⟨heval, ?_⟩
        intro v hv
        obtain ⟨w, hw, hnw⟩ := hstep v hv
        obtain ⟨q, rfl⟩ := valTy_fracT (hty w hw)
        simp only [pyNeg, Option.some.injEq] at hnw
        subst hnw
        rfl
  | bin op a b iha ihb =>
    intro ty h
    simp only [floatFreeTy] at h
    cases hfa : floatFreeTy a with
    | none => rw [hfa] at h; simp at h
    | some ta =>
      cases hfb : floatFreeTy b with
      | none => rw [hfa, hfb] at h; simp at h
      | some tb =>
        rw [hfa, hfb] at h
        obtain ⟨heqa, htya⟩ := iha ta hfa
        obtain ⟨heqb, htyb⟩ := ihb tb hfb
        cases hva : pyEvalExpr tbl off a with
        | none =>
          refine ⟨?_, ?_⟩
          · simp only [pyEvalExpr, exEvalExpr, hva, ← heqa]
          · intro v hv
            simp only [pyEvalExpr, hva] at hv
            exact absurd hv (by simp)
        | some va =>
          cases hvb : pyEvalExpr tbl off b with
          | none =>
            refine ⟨?_, ?_⟩
            · simp only [pyEvalExpr, exEvalExpr, ← heqa, ← heqb, hva, hvb]
            · intro v hv
              simp only [pyEvalExpr, hva, hvb] at hv
              exact absurd hv (by simp)
          | some vb =>
            have hbin := pyBin_exact op va vb ta tb ty (htya va hva) (htyb vb hvb) h
            refine ⟨?_, ?_⟩
            · simp only [pyEvalExpr, exEvalExpr, ← heqa, ← heqb, hva, hvb]
              exact hbin.1
            · intro v hv
              simp only [pyEvalExpr, hva, hvb] at hv
              exact hbin.2 v hv
  | decodeCall e ih =>
    intro ty h
    simp only [floatFreeTy] at h
    cases hfe : floatFreeTy e with
    | none => rw [hfe] at h; simp at h
    | some te =>
      rw [hfe] at h
      cases te with
      | fracT => simp at h
      | strT => simp at h
      | intT =>
        simp only [Option.some.injEq] at h
        subst h
        obtain ⟨heq, hty⟩ := ih PyTy.intT hfe
        refine ⟨?_, ?_⟩
        · simp only [pyEvalExpr, exEvalExpr, heq]
        · intro v hv
          simp only [pyEvalExpr] at hv
          cases hw : pyEvalExpr tbl off e with
          | none => rw [hw] at hv; exact absurd hv (by simp)
          | some w =>
            rw [hw] at hv
            obtain ⟨n, rfl⟩ := valTy_intT (hty w hw)
            simp only [Option.map_eq_some'] at hv
            obtain ⟨s, -, rfl⟩ := hv
            rfl
  | parseIntCall e ih =>
    intro ty h
    simp only [floatFreeTy] at h
    cases hfe : floatFreeTy e with
    | none => rw [hfe] at h; simp at h
    | some te =>
      rw [hfe] at h
      simp only [Option.some.injEq] at h
      subst h
      obtain ⟨heq, -⟩ := ih te hfe
      refine ⟨?_, ?_⟩
      · simp only [pyEvalExpr, exEvalExpr, heq]
      · intro v hv
        simp only [pyEvalExpr] at hv
        cases hw : pyEvalExpr tbl off e with
        | none => rw [hw] at hv; exact absurd hv (by simp)
        | some w =>
          simp only [hw] at hv
          cases hs : pyStrOf w with
          | none => rw [hs] at hv; exact absurd hv (by simp)
          | some s =>
            rw [hs] at hv
            simp only [Option.map_eq_some'] at hv
            obtain ⟨q, -, rfl⟩ := hv
            rfl

/-! ## Theorems for C3 -/

/-- The expression (0x20000000000000 + 0x1) / 0x1 from the restricted
grammar: integer literals and binary arithmetic only. -/
def c3expr : JSExpr :=
  JSExpr.bin JSOp.div
    (JSExpr.bin JSOp.add (JSExpr.intLit 9007199254740992) (JSExpr.intLit 1))
    (JSExpr.intLit 1)

/-- C3, counterexample: for the grammar expression
(0x20000000000000 + 0x1) / 0x1 the Python evaluation used by each rotation
step produces the float 2^53 (true division of two ints rounds to binary64),
which compares equal to the integer target 2^53, while exact rational
arithmetic gives 2^53 + 1, which does not; so evaluation is not exact
rational arithmetic and the comparison with the target is not exact. -/
theorem c3_float_counterexample :
    pyEvalExpr [] 0 c3expr = some (PyVal.floatv 9007199254740992) ∧
      exEvalExpr [] 0 c3expr = some (PyVal.fracv 9007199254740993) ∧
      pyConverged c3expr [] 0 9007199254740992 = true ∧
      exConverged c3expr [] 0 9007199254740992 = false := by
  refine ⟨by decide, by decide, by decide, by decide⟩

/-- C3, amended: parseInt coercions yield exact Fractions, the target
comparison is exact, and addition, subtraction and multiplication of ints
and Fractions are exact; but Python true division of two plain ints
produces a rounded float.  For every expression of the float-free fragment
(well-typed with no int-by-int division), each rotation-step evaluation
coincides with exact rational evaluation and the comparison with the
integer target checksum is exact. -/
theorem c3_exact_amended (tbl : List PyStr) (off t : Int) (e : JSExpr) (ty : PyTy)
    (h : floatFreeTy e = some ty) :
    pyEvalExpr tbl off e = exEvalExpr tbl off e ∧
      pyConverged e tbl off t = exConverged e tbl off t := by
  obtain ⟨heq, -⟩ := eval_exact tbl off e ty h
  exact ⟨heq, by simp only [pyConverged, exConverged, heq]⟩

/-- C3 witness: parseInt(decode(0x1)) + 0x2 on the table with entry 3 at
offset 1 is float-free; Python and exact evaluation agree. -/
theorem c3_exact_amended_witness :
    floatFreeTy (JSExpr.bin JSOp.add
        (JSExpr.parseIntCall (JSExpr.decodeCall (JSExpr.intLit 1)))
        (JSExpr.intLit 2)) = some PyTy.fracT ∧
      (pyEvalExpr [cp ("3")] 1 (JSExpr.bin JSOp.add
          (JSExpr.parseIntCall (JSExpr.decodeCall (JSExpr.intLit 1)))
          (JSExpr.intLit 2)) =
        exEvalExpr [cp ("3")] 1 (JSExpr.bin JSOp.add
          (JSExpr.parseIntCall (JSExpr.decodeCall (JSExpr.intLit 1)))
          (JSExpr.intLit 2)) ∧
        pyConverged (JSExpr.bin JSOp.add
          (JSExpr.parseIntCall (JSExpr.decodeCall (JSExpr.intLit 1)))
          (JSExpr.intLit 2)) [cp ("3")] 1 5 =
        exConverged (JSExpr.bin JSOp.add
          (JSExpr.parseIntCall (JSExpr.decodeCall (JSExpr.intLit 1)))
          (JSExpr.intLit 2)) [cp ("3")] 1 5) :=
  ⟨by decide, c3_exact_amended [cp ("3")] 1 5 (JSExpr.bin JSOp.add
    (JSExpr.parseIntCall (JSExpr.decodeCall (JSExpr.intLit 1)))
    (JSExpr.intLit 2)) PyTy.fracT (by decide)⟩

/-! ## The rotation loop (lines 289-299) -/

/-- One rotation: move the first element to the end (total form). -/
def rot1 : List PyStr → List PyStr
  | [] => []
  | x :: xs => xs ++ [x]

/-- The rotation statement `arr.append(arr.pop(0))`: `pop(0)` raises
IndexError on an empty list, outside the try-except. -/
def rotStep : List PyStr → Option (List PyStr)
  | [] => none
  | x :: xs => some (xs ++ [x])

/-- Outcome of the rotation loop: a converged table, the for-else
RotationDidNotConverge error after the cap, or an uncaught error from the
rotation statement itself. -/
inductive RotOutcome where
  | converged (tbl : List PyStr)
  | noConverge
  | rotErr
deriving DecidableEq

/-- The loop `for _ in range(max_iter)` (lines 290-299): evaluate and
compare inside try-except, break when equal, otherwise rotate; when the
range is exhausted the for-else raises RotationDidNotConverge.  One fuel
unit per iteration, fuel starting at the cap. -/
def rotLoopAux (e : JSExpr) (off t : Int) : Nat → List PyStr → RotOutcome
  | 0, _ => RotOutcome.noConverge
  | f + 1, tbl =>
    if pyConverged e tbl off t then RotOutcome.converged tbl
    else
      match rotStep tbl with
      | none => RotOutcome.rotErr
      | some tbl2 => rotLoopAux e off t f tbl2

/-- The rotation simulation with the cap `max(10_000, len(arr) * 5)`
computed from the initial table (line 289). -/
def rotateTable (e : JSExpr) (off t : Int) (tbl : List PyStr) : RotOutcome :=
  rotLoopAux e off t (max 10000 (tbl.length * 5)) tbl

/-- Rotation preserves nonemptiness. -/
theorem rot1_ne_nil {tbl : List PyStr} (h : tbl ≠ []) : rot1 tbl ≠ [] := by
  cases tbl with
  | nil => exact absurd rfl h
  | cons x xs => simp [rot1]

/-- On a nonempty table the rotation statement succeeds and rotates. -/
theorem rotStep_eq {tbl : List PyStr} (h : tbl ≠ []) : rotStep tbl = some (rot1 tbl) := by
  cases tbl with
  | nil => exact absurd rfl h
  | cons x xs => rfl

/-- Characterization of the rotation loop on a nonempty table: it reports
no convergence exactly when no rotation state within the fuel converges, a
converged result is the first converging rotation state, and the rotation
statement never fails. -/
theorem rotLoopAux_spec (e : JSExpr) (off t : Int) :
    ∀ (f : Nat) (tbl : List PyStr), tbl ≠ [] →
      (rotLoopAux e off t f tbl = RotOutcome.noConverge ↔
        ∀ k < f, pyConverged e (rot1^[k] tbl) off t = false) ∧
      (∀ tbl2, rotLoopAux e off t f tbl = RotOutcome.converged tbl2 →
        ∃ k, k < f ∧ tbl2 = rot1^[k] tbl ∧
          pyConverged e (rot1^[k] tbl) off t = true ∧
          ∀ j < k, pyConverged e (rot1^[j] tbl) off t = false) ∧
      rotLoopAux e off t f tbl ≠ RotOutcome.rotErr := by
  intro f
  induction f with
  | zero =>
    intro tbl _
    refine ⟨?_, ?_, ?_⟩
    · simp [rotLoopAux]
    · intro tbl2 h2
      simp [rotLoopAux] at h2
    · simp [rotLoopAux]
  | succ f ih =>
    intro tbl htbl
    have hrot := rotStep_eq htbl
    obtain ⟨ih1, ih2, ih3⟩ := ih (rot1 tbl) (rot1_ne_nil htbl)
    by_cases hc : pyConverged e tbl off t
    · have hval : rotLoopAux e off t (f + 1) tbl = RotOutcome.converged tbl := by
        rw [rotLoopAux, if_pos hc]
      refine ⟨?_, ?_, ?_⟩
      · rw [hval]
        constructor
        · intro h2; exact absurd h2 (by simp)
        · intro h2
          exact absurd hc (by simpa using h2 0 (by omega))
      · intro tbl2 h2
        rw [hval] at h2
        simp only [RotOutcome.converged.injEq] at h2
        subst h2
        exact ⟨0, by omega, rfl, hc, by omega⟩
      · rw [hval]
        simp
    · have hval : rotLoopAux e off t (f + 1) tbl = rotLoopAux e off t f (rot1 tbl) := by
        rw [rotLoopAux, if_neg hc, hrot]
      refine ⟨?_, ?_, ?_⟩
      · rw [hval, ih1]
        constructor
        · intro h2 k hk
          cases k with
          | zero => simpa using hc
          | succ j =>
            rw [Function.iterate_succ_apply]
            exact h2 j (by omega)
        · intro h2 k hk
          rw [← Function.iterate_succ_apply]
          exact h2 (k + 1) (by omega)
      · intro tbl2 h2
        rw [hval] at h2
        obtain ⟨k, hk, hrw, hcv, hmin⟩ := ih2 tbl2 h2
        refine ⟨k + 1, by omega, ?_, ?_, ?_⟩
        · rw [Function.iterate_succ_apply]; exact hrw
        · rw [Function.iterate_succ_apply]; exact hcv
        · intro j hj
          cases j with
          | zero => simpa using hc
          | succ i =>
            rw [Function.iterate_succ_apply]
            exact hmin i (by omega)
      · rw [hval]
        exact ih3

/-! ## Theorems for C5 -/

/-- C5, counterexample: with the empty table and the expression 0x1 against
target 0, the rotation loop performs a single iteration and the run fails
with an uncaught IndexError from `arr.pop(0)` - not with
RotationDidNotConverge as the claim states for every table. -/
theorem c5_empty_table_counterexample :
    rotateTable (JSExpr.intLit 1) 0 0 [] = RotOutcome.rotErr ∧
      RotOutcome.rotErr ≠ RotOutcome.noConverge := by
  refine ⟨by decide, by decide⟩

/-- C5, amended: for every nonempty table, target and convergence
expression the rotation loop performs at most `max(10000, len(table) * 5)`
evaluate-and-rotate iterations; it fails with RotationDidNotConverge
exactly when no rotation state within the cap makes the expression equal
the target; a converged run stops at the first converging rotation; and the
loop always terminates without a rotation-step error.  (For the empty
table, unless the first evaluation already equals the target, the rotation
statement itself raises IndexError.) -/
theorem c5_rotation_cap_amended (e : JSExpr) (off t : Int) (tbl : List PyStr)
    (h : tbl ≠ []) :
    (rotateTable e off t tbl = RotOutcome.noConverge ↔
      ∀ k < max 10000 (tbl.length * 5), pyConverged e (rot1^[k] tbl) off t = false) ∧
      (∀ tbl2, rotateTable e off t tbl = RotOutcome.converged tbl2 →
        ∃ k, k < max 10000 (tbl.length * 5) ∧ tbl2 = rot1^[k] tbl ∧
          pyConverged e (rot1^[k] tbl) off t = true ∧
          ∀ j < k, pyConverged e (rot1^[j] tbl) off t = false) ∧
      rotateTable e off t tbl ≠ RotOutcome.rotErr :=
  rotLoopAux_spec e off t (max 10000 (tbl.length * 5)) tbl h

/-- C5 witness: a singleton table never reaches the rotation-step error. -/
theorem c5_rotation_cap_amended_witness :
    (([cp ("x")] : List PyStr) ≠ []) ∧
      rotateTable (JSExpr.intLit 0) 0 1 [cp ("x")] ≠ RotOutcome.rotErr :=
  ⟨by decide, (c5_rotation_cap_amended (JSExpr.intLit 0) 0 1 [cp ("x")] (by decide)).2.2⟩

/-! ## `_extract_balanced` (lines 80-111) -/

/-- Scanner string state: the quote character of the string currently being
skipped (if any) and the escape flag. -/
abbrev StrSt := Option Nat × Bool

/-- The string-tracking automaton of the scanner, independent of the
delimiter pair: inside a string an escape consumes the next character, a
backslash sets the escape flag, and only the unescaped matching quote exits
string mode; outside, a quote enters string mode. -/
def strStep (st : StrSt) (ch : Nat) : StrSt :=
  match st with
  | (some q, true) => (some q, false)
  | (some q, false) =>
    if ch = 92 then (some q, true)
    else if ch = q then (none, false)
    else (some q, false)
  | (none, esc) => if ch = 39 ∨ ch = 34 then (some ch, esc) else (none, esc)

/-- A character is depth-counted exactly when scanned outside any string
and not itself a quote; characters inside quoted strings (including after
backslash escapes) never change the depth count. -/
def countedC (st : StrSt) (ch : Nat) : Bool :=
  st.1 = none ∧ ¬(ch = 39 ∨ ch = 34)

/-- Depth contribution of one character: plus one for a counted open
delimiter, minus one for a counted close delimiter, zero otherwise. -/
def contribC (o c : Nat) (st : StrSt) (ch : Nat) : Int :=
  if countedC st ch then (if ch = o then 1 else if ch = c then -1 else 0) else 0

/-- String state and accumulated depth after the first `k` characters,
starting from `init` (a fold, the declarative side of the claim). -/
def scanFoldFrom (o c : Nat) (init : StrSt × Int) (seg : List Nat) (k : Nat) : StrSt × Int :=
  (seg.take k).foldl (fun p ch => (strStep p.1 ch, p.2 + contribC o c p.1 ch)) init

/-- The structurally matching close at position `k`: the character is the
close delimiter, is depth-counted (outside every string), and the depth
before it is exactly one. -/
def closeFrom (o c : Nat) (init : StrSt × Int) (seg : List Nat) (k : Nat) : Bool :=
  match seg.get? k with
  | some ch =>
    ch = c ∧ countedC (scanFoldFrom o c init seg k).1 ch ∧
      (scanFoldFrom o c init seg k).2 = 1
  | none => false

/-- The position of the first structural close, recursively. -/
def firstClose (o c : Nat) : List Nat → StrSt → Int → Option Nat
  | [], _, _ => none
  | ch :: rest, st, d =>
    if ch = c ∧ countedC st ch ∧ d = 1 then some 0
    else (firstClose o c rest (strStep st ch) (d + contribC o c st ch)).map (fun m => m + 1)

/-- The loop of `_extract_balanced` (lines 87-109), faithful to the Python
control flow: the string branch first (escape flag, backslash, matching
quote), then quote entry, then the open and close delimiter checks with the
early return when the depth reaches zero.  Returns the index of the closing
character relative to the scan start. -/
def ebLoop (o c : Nat) : List Nat → StrSt → Int → Nat → Option Nat
  | [], _, _, _ => none
  | ch :: rest, st, depth, i =>
    match st with
    | (some q, true) => ebLoop o c rest (some q, false) depth (i + 1)
    | (some q, false) =>
      if ch = 92 then ebLoop o c rest (some q, true) depth (i + 1)
      else if ch = q then ebLoop o c rest (none, false) depth (i + 1)
      else ebLoop o c rest (some q, false) depth (i + 1)
    | (none, esc) =>
      if ch = 39 ∨ ch = 34 then ebLoop o c rest (some ch, esc) depth (i + 1)
      else if ch = o then ebLoop o c rest (none, esc) (depth + 1) (i + 1)
      else if ch = c then
        (if depth - 1 = 0 then some i else ebLoop o c rest (none, esc) (depth - 1) (i + 1))
      else ebLoop o c rest (none, esc) depth (i + 1)

/-- Scanner outcome errors: the precondition `js[start] == open_ch` failed
(or `start` is out of range), or the text ended before the depth returned
to zero. -/
inductive EBErr where
  | precond
  | unbalanced
deriving DecidableEq

/-- `_extract_balanced` (lines 80-111): after the precondition check, scan
from `start` with fresh state; on success return the region from `start`
through the matching close inclusive together with the index just past it;
raise the unbalanced error when the end of text is reached first. -/
def extractBalanced (js : List Nat) (start : Nat) (o c : Nat) :
    Except EBErr (List Nat × Nat) :=
  match js.get? start with
  | none => Except.error EBErr.precond
  | some ch =>
    if ch = o then
      match ebLoop o c (js.drop start) (none, false) 0 0 with
      | some k => Except.ok ((js.drop start).take (k + 1), start + k + 1)
      | none => Except.error EBErr.unbalanced
    else Except.error EBErr.precond

/-- The close test at position zero. -/
theorem closeFrom_zero (o c : Nat) (st : StrSt) (d : Int) (ch : Nat) (rest : List Nat) :
    closeFrom o c (st, d) (ch :: rest) 0 = true ↔
      (ch = c ∧ countedC st ch = true ∧ d = 1) := by
  simp [closeFrom, scanFoldFrom]

/-- The close test shifts by one automaton step. -/
theorem closeFrom_succ (o c : Nat) (st : StrSt) (d : Int) (ch : Nat) (rest : List Nat)
    (m : Nat) :
    closeFrom o c (st, d) (ch :: rest) (m + 1) =
      closeFrom o c (strStep st ch, d + contribC o c st ch) rest m := by
  simp [closeFrom, scanFoldFrom, List.take_succ_cons]

/-- Composing the successor shift with an offset. -/
theorem map_shift (f : Option Nat) (i : Nat) :
    ((f.map (fun m => m + 1)).map (fun m => i + m)) = f.map (fun m => i + 1 + m) := by
  cases f with
  | none => rfl
  | some m =>
    show some (i + (m + 1)) = some (i + 1 + m)
    congr 1
    omega

/-- Unfolding `firstClose` when the head is not the close. -/
theorem firstClose_cons_neg (o c : Nat) (ch : Nat) (rest : List Nat) (st : StrSt) (d : Int)
    (hcond : ¬(ch = c ∧ countedC st ch = true ∧ d = 1)) :
    firstClose o c (ch :: rest) st d =
      (firstClose o c rest (strStep st ch) (d + contribC o c st ch)).map (fun m => m + 1) := by
  rw [firstClose, if_neg hcond]

/-- Characters scanned inside a string are never counted. -/
theorem countedC_some (q : Nat) (esc : Bool) (ch : Nat) : countedC (some q, esc) ch = false := by
  simp [countedC]

/-- Characters scanned inside a string contribute no depth. -/
theorem contribC_some (o c q : Nat) (esc : Bool) (ch : Nat) :
    contribC o c (some q, esc) ch = 0 := by
  simp [contribC, countedC]

/-- A quote character outside a string is not counted. -/
theorem countedC_quote {ch : Nat} (esc : Bool) (hqu : ch = 39 ∨ ch = 34) :
    countedC (none, esc) ch = false := by
  simp [countedC, hqu]

/-- A non-quote character outside every string is counted. -/
theorem countedC_none {ch : Nat} (esc : Bool) (hqu : ¬(ch = 39 ∨ ch = 34)) :
    countedC (none, esc) ch = true := by
  simp [countedC]
  tauto

/-- A quote outside a string contributes no depth. -/
theorem contribC_quote (o c : Nat) {ch : Nat} (esc : Bool) (hqu : ch = 39 ∨ ch = 34) :
    contribC o c (none, esc) ch = 0 := by
  unfold contribC
  rw [countedC_quote esc hqu]
  simp

/-- A counted open delimiter contributes one. -/
theorem contribC_open (o c : Nat) {ch : Nat} (esc : Bool) (hqu : ¬(ch = 39 ∨ ch = 34))
    (hco : ch = o) : contribC o c (none, esc) ch = 1 := by
  unfold contribC
  rw [countedC_none esc hqu, if_pos rfl, if_pos hco]

/-- A counted close delimiter contributes minus one. -/
theorem contribC_close (o c : Nat) {ch : Nat} (esc : Bool) (hqu : ¬(ch = 39 ∨ ch = 34))
    (hco : ¬ch = o) (hcc : ch = c) : contribC o c (none, esc) ch = -1 := by
  unfold contribC
  rw [countedC_none esc hqu, if_pos rfl, if_neg hco, if_pos hcc]

/-- Any other counted character contributes nothing. -/
theorem contribC_other (o c : Nat) {ch : Nat} (esc : Bool) (hqu : ¬(ch = 39 ∨ ch = 34))
    (hco : ¬ch = o) (hcc : ¬ch = c) : contribC o c (none, esc) ch = 0 := by
  unfold contribC
  rw [countedC_none esc hqu, if_pos rfl, if_neg hco, if_neg hcc]

/-- The scanner loop finds exactly the first structural close, offset by
the running index. -/
theorem ebLoop_eq_firstClose (o c : Nat) (hoc : o ≠ c) :
    ∀ (seg : List Nat) (st : StrSt) (d : Int) (i : Nat),
      ebLoop o c seg st d i = (firstClose o c seg st d).map (fun m => i + m) := by
  intro seg
  induction seg with
  | nil => intro st d i; rfl
  | cons ch rest ih =>
    intro st d i
    obtain ⟨inq, esc⟩ := st
    cases inq with
    | some q =>
      have hcond : ¬(ch = c ∧ countedC (some q, esc) ch = true ∧ d = 1) := by
        simp [countedC]
      have hd : d + contribC o c (some q, esc) ch = d := by
        rw [contribC_some]
        omega
      rw [firstClose_cons_neg o c ch rest (some q, esc) d hcond, hd]
      cases esc with
      | true =>
        rw [show ebLoop o c (ch :: rest) (some q, true) d i =
            ebLoop o c rest (some q, false) d (i + 1) from rfl]
        rw [show strStep (some q, true) ch = (some q, false) from rfl, map_shift]
        exact ih (some q, false) d (i + 1)
      | false =>
        by_cases h92 : ch = 92
        · rw [show ebLoop o c (ch :: rest) (some q, false) d i =
              ebLoop o c rest (some q, true) d (i + 1) by
            simp only [ebLoop]; rw [if_pos h92]]
          rw [show strStep (some q, false) ch = (some q, true) by
            simp only [strStep]; rw [if_pos h92]]
          rw [map_shift]
          exact ih (some q, true) d (i + 1)
        · by_cases hq : ch = q
          · rw [show ebLoop o c (ch :: rest) (some q, false) d i =
                ebLoop o c rest (none, false) d (i + 1) by
              simp only [ebLoop]; rw [if_neg h92, if_pos hq]]
            rw [show strStep (some q, false) ch = (none, false) by
              simp only [strStep]; rw [if_neg h92, if_pos hq]]
            rw [map_shift]
            exact ih (none, false) d (i + 1)
          · rw [show ebLoop o c (ch :: rest) (some q, false) d i =
                ebLoop o c rest (some q, false) d (i + 1) by
              simp only [ebLoop]; rw [if_neg h92, if_neg hq]]
            rw [show strStep (some q, false) ch = (some q, false) by
              simp only [strStep]; rw [if_neg h92, if_neg hq]]
            rw [map_shift]
            exact ih (some q, false) d (i + 1)
    | none =>
      by_cases hqu : ch = 39 ∨ ch = 34
      · have hcond : ¬(ch = c ∧ countedC (none, esc) ch = true ∧ d = 1) := by
          intro h
          rw [countedC_quote esc hqu] at h
          exact absurd h.2.1 (by simp)
        have hd : d + contribC o c (none, esc) ch = d := by
          rw [contribC_quote o c esc hqu]
          omega
        rw [show ebLoop o c (ch :: rest) (none, esc) d i =
            ebLoop o c rest (some ch, esc) d (i + 1) by
          simp only [ebLoop]; rw [if_pos hqu]]
        rw [firstClose_cons_neg o c ch rest (none, esc) d hcond]
        rw [show strStep (none, esc) ch = (some ch, esc) by
          simp only [strStep]; rw [if_pos hqu]]
        rw [hd, map_shift]
        exact ih (some ch, esc) d (i + 1)
      · have hst : strStep (none, esc) ch = (none, esc) := by
          simp only [strStep]; rw [if_neg hqu]
        by_cases hco : ch = o
        · have hcond : ¬(ch = c ∧ countedC (none, esc) ch = true ∧ d = 1) :=
            fun h => hoc (hco.symm.trans h.1)
          have hd : d + contribC o c (none, esc) ch = d + 1 := by
            rw [contribC_open o c esc hqu hco]
          rw [show ebLoop o c (ch :: rest) (none, esc) d i =
              ebLoop o c rest (none, esc) (d + 1) (i + 1) by
            simp only [ebLoop]; rw [if_neg hqu, if_pos hco]]
          rw [firstClose_cons_neg o c ch rest (none, esc) d hcond, hst, hd, map_shift]
          exact ih (none, esc) (d + 1) (i + 1)
        · by_cases hcc : ch = c
          · by_cases hd1 : d = 1
            · rw [show ebLoop o c (ch :: rest) (none, esc) d i = some i by
                simp only [ebLoop]
                rw [if_neg hqu, if_neg hco, if_pos hcc, if_pos (by omega : d - 1 = 0)]]
              rw [show firstClose o c (ch :: rest) (none, esc) d = some 0 by
                rw [firstClose, if_pos ⟨hcc, countedC_none esc hqu, hd1⟩]]
              simp
            · have hcond : ¬(ch = c ∧ countedC (none, esc) ch = true ∧ d = 1) :=
                fun h => hd1 h.2.2
              have hd : d + contribC o c (none, esc) ch = d - 1 := by
                rw [contribC_close o c esc hqu hco hcc]
                omega
              rw [show ebLoop o c (ch :: rest) (none, esc) d i =
                  ebLoop o c rest (none, esc) (d - 1) (i + 1) by
                simp only [ebLoop]
                rw [if_neg hqu, if_neg hco, if_pos hcc, if_neg (by omega : ¬d - 1 = 0)]]
              rw [firstClose_cons_neg o c ch rest (none, esc) d hcond, hst, hd, map_shift]
              exact ih (none, esc) (d - 1) (i + 1)
          · have hcond : ¬(ch = c ∧ countedC (none, esc) ch = true ∧ d = 1) :=
              fun h => hcc h.1
            have hd : d + contribC o c (none, esc) ch = d := by
              rw [contribC_other o c esc hqu hco hcc]
              omega
            rw [show ebLoop o c (ch :: rest) (none, esc) d i =
                ebLoop o c rest (none, esc) d (i + 1) by
              simp only [ebLoop]; rw [if_neg hqu, if_neg hco, if_neg hcc]]
            rw [firstClose_cons_neg o c ch rest (none, esc) d hcond, hst, hd, map_shift]
            exact ih (none, esc) d (i + 1)

/-- `firstClose` is sound and complete for the declarative close test: it
returns exactly the least position whose close test holds, and is none
exactly when no position passes it. -/
theorem firstClose_spec (o c : Nat) :
    ∀ (seg : List Nat) (st : StrSt) (d : Int),
      (∀ m, firstClose o c seg st d = some m ↔
        (closeFrom o c (st, d) seg m = true ∧
          ∀ j < m, closeFrom o c (st, d) seg j = false)) ∧
      (firstClose o c seg st d = none ↔
        ∀ m, closeFrom o c (st, d) seg m = false) := by
  intro seg
  induction seg with
  | nil =>
    intro st d
    refine ⟨?_, ?_⟩
    · intro m
      constructor
      · intro h
        simp [firstClose] at h
      · intro h
        have h1 := h.1
        simp [closeFrom] at h1
    · constructor
      · intro _ m
        simp [closeFrom]
      · intro _
        rfl
  | cons ch rest ih =>
    intro st d
    obtain ⟨ih1, ih2⟩ := ih (strStep st ch) (d + contribC o c st ch)
    by_cases hcond : (ch = c ∧ countedC st ch = true ∧ d = 1)
    · have hfc : firstClose o c (ch :: rest) st d = some 0 := by
        rw [firstClose, if_pos hcond]
      have htrue : closeFrom o c (st, d) (ch :: rest) 0 = true :=
        (closeFrom_zero o c st d ch rest).mpr hcond
      refine ⟨?_, ?_⟩
      · intro m
        rw [hfc]
        constructor
        · intro h
          simp only [Option.some.injEq] at h
          subst h
          exact ⟨htrue, by omega⟩
        · intro h
          rcases Nat.eq_zero_or_pos m with rfl | hm
          · rfl
          · have hfalse := h.2 0 hm
            rw [htrue] at hfalse
            exact absurd hfalse (by simp)
      · rw [hfc]
        constructor
        · intro h
          exact absurd h (by simp)
        · intro hall
          have hfalse := hall 0
          rw [htrue] at hfalse
          exact absurd hfalse (by simp)
    · have hfc := firstClose_cons_neg o c ch rest st d hcond
      have hzero : closeFrom o c (st, d) (ch :: rest) 0 = false := by
        cases hb : closeFrom o c (st, d) (ch :: rest) 0 with
        | false => rfl
        | true => exact absurd ((closeFrom_zero o c st d ch rest).mp hb) hcond
      refine ⟨?_, ?_⟩
      · intro m
        rw [hfc]
        constructor
        · intro h
          simp only [Option.map_eq_some'] at h
          obtain ⟨m2, hm2, rfl⟩ := h
          obtain ⟨h1, hmin⟩ := (ih1 m2).mp hm2
          refine ⟨?_, ?_⟩
          · rw [closeFrom_succ]
            exact h1
          · intro j hj
            cases j with
            | zero => exact hzero
            | succ j2 =>
              rw [closeFrom_succ]
              exact hmin j2 (by omega)
        · intro h
          cases m with
          | zero =>
            rw [hzero] at h
            exact absurd h.1 (by simp)
          | succ m2 =>
            have h1 := h.1
            rw [closeFrom_succ] at h1
            have hmin2 : ∀ j < m2,
                closeFrom o c (strStep st ch, d + contribC o c st ch) rest j = false := by
              intro j hj
              have hx := h.2 (j + 1) (by omega)
              rwa [closeFrom_succ] at hx
            rw [(ih1 m2).mpr ⟨h1, hmin2⟩]
            rfl
      · rw [hfc]
        constructor
        · intro h m
          have hnone : firstClose o c rest (strStep st ch) (d + contribC o c st ch) = none := by
            cases hx : firstClose o c rest (strStep st ch) (d + contribC o c st ch) with
            | none => rfl
            | some k =>
              rw [hx] at h
              exact absurd h (by simp)
          cases m with
          | zero => exact hzero
          | succ m2 =>
            rw [closeFrom_succ]
            exact ih2.mp hnone m2
        · intro hall
          have hnone : firstClose o c rest (strStep st ch) (d + contribC o c st ch) = none := by
            refine ih2.mpr ?_
            intro m
            have hx := hall (m + 1)
            rwa [closeFrom_succ] at hx
          rw [hnone]
          rfl

/-! ## Theorems for C4 -/

/-- C4: whenever `text[start]` is the open delimiter (and the two
delimiters differ), the scanner returns exactly the region ending at the
structurally matching close delimiter - the least position holding the
close character, scanned outside every quoted string (so opens and closes
inside strings, including after backslash escapes, never change the depth
count, as the `countedC` condition in `closeFrom` states), with depth
exactly one before it - and fails with the unbalanced error exactly when no
such position exists before the end of the text. -/
theorem c4_scanner_balanced (js : List Nat) (start o c : Nat)
    (hpre : js.get? start = some o) (hoc : o ≠ c) :
    (∀ r e2, extractBalanced js start o c = Except.ok (r, e2) ↔
      ∃ k, closeFrom o c ((none, false), 0) (js.drop start) k = true ∧
        (∀ j < k, closeFrom o c ((none, false), 0) (js.drop start) j = false) ∧
        r = (js.drop start).take (k + 1) ∧ e2 = start + k + 1) ∧
    (extractBalanced js start o c = Except.error EBErr.unbalanced ↔
      ∀ k, closeFrom o c ((none, false), 0) (js.drop start) k = false) := by
  have hloop := ebLoop_eq_firstClose o c hoc (js.drop start) (none, false) 0 0
  obtain ⟨hfc1, hfc2⟩ := firstClose_spec o c (js.drop start) (none, false) 0
  have hx : extractBalanced js start o c =
      (match ebLoop o c (js.drop start) (none, false) 0 0 with
       | some k => Except.ok ((js.drop start).take (k + 1), start + k + 1)
       | none => Except.error EBErr.unbalanced) := by
    simp only [extractBalanced, hpre]
    simp
  cases hFC : firstClose o c (js.drop start) (none, false) 0 with
  | some k =>
    have hEB : ebLoop o c (js.drop start) (none, false) 0 0 = some k := by
      rw [hloop, hFC]
      simp
    rw [hEB] at hx
    obtain ⟨hk, hkmin⟩ := (hfc1 k).mp hFC
    constructor
    · intro r e2
      rw [hx]
      constructor
      · intro h
        simp only [Except.ok.injEq, Prod.mk.injEq] at h
        exact ⟨k, hk, hkmin, h.1.symm, h.2.symm⟩
      · intro h
        obtain ⟨k2, h1, hmin, hr, he⟩ := h
        have : firstClose o c (js.drop start) (none, false) 0 = some k2 :=
          (hfc1 k2).mpr ⟨h1, hmin⟩
        rw [hFC] at this
        simp only [Option.some.injEq] at this
        subst this
        rw [hr, he]
    · rw [hx]
      constructor
      · intro h
        exact absurd h (by simp)
      · intro hall
        have := hall k
        rw [hk] at this
        exact absurd this (by simp)
  | none =>
    have hEB : ebLoop o c (js.drop start) (none, false) 0 0 = none := by
      rw [hloop, hFC]
      rfl
    rw [hEB] at hx
    constructor
    · intro r e2
      rw [hx]
      constructor
      · intro h
        exact absurd h (by simp)
      · intro h
        obtain ⟨k2, h1, hmin, -, -⟩ := h
        have := (hfc1 k2).mpr ⟨h1, hmin⟩
        rw [hFC] at this
        exact absurd this (by simp)
    · rw [hx]
      constructor
      · intro _
        exact hfc2.mp hFC
      · intro _
        rfl

/-- C4 witness: scanning a parenthesized region containing a close
parenthesis inside a string literal; the scanner returns the region closed
by the counted close parenthesis after the string. -/
theorem c4_scanner_balanced_witness :
    ((cp ("(a\x22b)\x22c)d")).get? 0 = some 40 ∧ (40 : Nat) ≠ 41) ∧
      (extractBalanced (cp ("(a\x22b)\x22c)d")) 0 40 41 =
          Except.ok (cp ("(a\x22b)\x22c)"), 8) ↔
        ∃ k, closeFrom 40 41 ((none, false), 0) ((cp ("(a\x22b)\x22c)d")).drop 0) k = true ∧
          (∀ j < k, closeFrom 40 41 ((none, false), 0) ((cp ("(a\x22b)\x22c)d")).drop 0) j
            = false) ∧
          cp ("(a\x22b)\x22c)") = ((cp ("(a\x22b)\x22c)d")).drop 0).take (k + 1) ∧
          8 = 0 + k + 1) :=
  ⟨⟨by decide, by decide⟩,
    (c4_scanner_balanced (cp ("(a\x22b)\x22c)d")) 0 40 41 (by decide) (by decide)).1
      (cp ("(a\x22b)\x22c)")) 8⟩
